import Mathlib

/-!
Verification of the 3scale-go-client request/response translation layer.

The development shallowly embeds the Go sources of the repository:

* `threescale/api/utilities.go` — the `Metrics`/`Hierarchy` aggregation
  algebra (`Add`, `Set`, `Delete`, `DeepCopy`, `AddHierarchyToMetrics`,
  `SubtractHierarchyFromMetrics`).  Go maps are modelled as association
  lists with unique keys; a `range` loop over a (possibly mutating) Go map
  is modelled as a fold over an explicit visit order, and a predicate
  `validStep` characterises exactly the visit orders the Go runtime may
  produce (every key present at loop start is visited once; the single key
  the loop body may create may or may not additionally be visited).
* `threescale/http/client.go` — response handling (`handleAuthExtensions`,
  `handleRateLimitExtensions`, `handleAuthXMLResp`, `executeReportCall`,
  `handleReportingError`, `CodeToStatusCode`).
* `threescale/http/builder.go` — query-parameter encoding.

Go `int` values are modelled by unbounded `Int` (metric quantities), and
fallible operations return their error as an explicit `Bool`/`Option`.
-/

namespace ThreeScaleClient

/-! ### Association-list maps (the model of Go maps) -/

/-- Lookup in an association list, the model of a Go map read `m[k]`. -/
def alookup {κ α : Type} [DecidableEq κ] : List (κ × α) → κ → Option α
  | [], _ => none
  | (k, v) :: rest, key => if k = key then some v else alookup rest key

/-- Update-or-append, the model of a Go map write `m[k] = v`. -/
def ainsert {κ α : Type} [DecidableEq κ] : List (κ × α) → κ → α → List (κ × α)
  | [], key, val => [(key, val)]
  | (k, v) :: rest, key, val =>
    if k = key then (k, val) :: rest else (k, v) :: ainsert rest key val

/-- Removal of a key, the model of Go `delete(m, k)`. -/
def aerase {κ α : Type} [DecidableEq κ] : List (κ × α) → κ → List (κ × α)
  | [], _ => []
  | (k, v) :: rest, key =>
    if k = key then aerase rest key else (k, v) :: aerase rest key

/-- The keys of an association list. -/
def akeys {κ α : Type} (l : List (κ × α)) : List κ := l.map Prod.fst

/-- The invariant every Go map satisfies: one entry per key. -/
def nodupKeys {κ α : Type} (l : List (κ × α)) : Prop := (akeys l).Nodup

instance nodupKeysDec {κ α : Type} [DecidableEq κ] (l : List (κ × α)) :
    Decidable (nodupKeys l) :=
  List.nodupDecidable (akeys l)

theorem alookup_ainsert {κ α : Type} [DecidableEq κ]
    (l : List (κ × α)) (k : κ) (v : α) (k' : κ) :
    alookup (ainsert l k v) k' = if k = k' then some v else alookup l k' := by
  induction l with
  | nil => simp [ainsert, alookup]
  | cons hd tl ih =>
    obtain ⟨hk, hv⟩ := hd
    by_cases h1 : hk = k
    · subst h1
      by_cases h2 : hk = k' <;> simp [ainsert, alookup, h2]
    · by_cases h2 : hk = k'
      · subst h2
        simp [ainsert, alookup, h1, Ne.symm h1]
      · simp [ainsert, alookup, h1, h2, ih]

theorem alookup_aerase {κ α : Type} [DecidableEq κ]
    (l : List (κ × α)) (k : κ) (k' : κ) :
    alookup (aerase l k) k' = if k = k' then none else alookup l k' := by
  induction l with
  | nil => simp [aerase, alookup]
  | cons hd tl ih =>
    obtain ⟨hk, hv⟩ := hd
    by_cases h1 : hk = k
    · subst h1
      by_cases h2 : hk = k'
      · subst h2
        simp [aerase, ih]
      · simp [aerase, alookup, ih, h2]
    · by_cases h2 : hk = k'
      · subst h2
        simp [aerase, alookup, h1, Ne.symm h1, ih]
      · simp [aerase, alookup, h1, h2, ih]

theorem alookup_isSome_iff_mem_akeys {κ α : Type} [DecidableEq κ]
    (l : List (κ × α)) (k : κ) : (alookup l k).isSome ↔ k ∈ akeys l := by
  induction l with
  | nil => simp [alookup, akeys]
  | cons hd tl ih =>
    obtain ⟨hk, hv⟩ := hd
    by_cases h : hk = k
    · subst h; simp [alookup, akeys]
    · simp [alookup, akeys, h, Ne.symm h, ih]

theorem alookup_eq_none_iff_not_mem_akeys {κ α : Type} [DecidableEq κ]
    (l : List (κ × α)) (k : κ) : alookup l k = none ↔ k ∉ akeys l := by
  rw [← alookup_isSome_iff_mem_akeys]
  cases h : alookup l k <;> simp [h]

theorem mem_of_alookup_eq_some {κ α : Type} [DecidableEq κ]
    {l : List (κ × α)} {k : κ} {v : α} (h : alookup l k = some v) : (k, v) ∈ l := by
  induction l with
  | nil => simp [alookup] at h
  | cons hd tl ih =>
    obtain ⟨hk, hv⟩ := hd
    by_cases h1 : hk = k
    · subst h1
      simp [alookup] at h
      simp [h]
    · simp [alookup, h1] at h
      exact List.mem_cons_of_mem _ (ih h)

theorem alookup_eq_some_of_mem {κ α : Type} [DecidableEq κ]
    {l : List (κ × α)} {k : κ} {v : α} (hnd : nodupKeys l) (h : (k, v) ∈ l) :
    alookup l k = some v := by
  induction l with
  | nil => simp at h
  | cons hd tl ih =>
    obtain ⟨hk, hv⟩ := hd
    simp only [nodupKeys, akeys, List.map_cons, List.nodup_cons] at hnd
    rcases List.mem_cons.1 h with h1 | h1
    · rw [Prod.mk.injEq] at h1
      simp [alookup, h1.1, h1.2]
    · have hk_ne : hk ≠ k := by
        intro he
        subst he
        exact hnd.1 (List.mem_map_of_mem Prod.fst h1)
      simp only [alookup, if_neg hk_ne]
      exact ih hnd.2 h1

theorem mem_akeys_ainsert {κ α : Type} [DecidableEq κ]
    (l : List (κ × α)) (k : κ) (v : α) (k' : κ) :
    k' ∈ akeys (ainsert l k v) ↔ k' ∈ akeys l ∨ k' = k := by
  rw [← alookup_isSome_iff_mem_akeys, ← alookup_isSome_iff_mem_akeys,
    alookup_ainsert]
  by_cases h : k = k'
  · subst h; simp
  · rw [if_neg h]
    constructor
    · exact Or.inl
    · rintro (hs | he)
      · exact hs
      · exact absurd he.symm h

theorem nodupKeys_ainsert {κ α : Type} [DecidableEq κ]
    (l : List (κ × α)) (k : κ) (v : α) (h : nodupKeys l) :
    nodupKeys (ainsert l k v) := by
  induction l with
  | nil => simp [ainsert, nodupKeys, akeys]
  | cons hd tl ih =>
    obtain ⟨hk, hv⟩ := hd
    simp only [nodupKeys, akeys, List.map_cons, List.nodup_cons] at h
    by_cases h1 : hk = k
    · subst h1
      simpa [ainsert, nodupKeys, akeys] using h
    · have htl := ih h.2
      simp only [ainsert, if_neg h1, nodupKeys, akeys, List.map_cons,
        List.nodup_cons]
      refine ⟨fun hb => ?_, htl⟩
      rcases (mem_akeys_ainsert tl k v hk).1 hb with hmem | hkey
      · exact h.1 hmem
      · exact h1 hkey

theorem nodupKeys_aerase {κ α : Type} [DecidableEq κ]
    (l : List (κ × α)) (k : κ) (h : nodupKeys l) : nodupKeys (aerase l k) := by
  induction l with
  | nil => simpa [aerase] using h
  | cons hd tl ih =>
    obtain ⟨hk, hv⟩ := hd
    simp only [nodupKeys, akeys, List.map_cons, List.nodup_cons] at h
    by_cases h1 : hk = k
    · subst h1
      simpa [aerase] using ih h.2
    · have htl := ih h.2
      simp only [aerase, if_neg h1, nodupKeys, akeys, List.map_cons,
        List.nodup_cons]
      refine ⟨fun hb => ?_, htl⟩
      have : (alookup (aerase tl k) hk).isSome := by
        rw [alookup_isSome_iff_mem_akeys]; exact hb
      rw [alookup_aerase] at this
      by_cases h2 : k = hk
      · simp [h2] at this
      · rw [if_neg h2, alookup_isSome_iff_mem_akeys] at this
        exact h.1 this

/-! ### `threescale/api` — Metrics, Hierarchy and their operations

`api.Metrics` is `map[string]int`; `api.Hierarchy` is `map[string][]string`.
Both are modelled as association lists with unique keys. -/

/-- `api.Metrics`: mapping from metric name to signed quantity. -/
abbrev Metrics := List (String × Int)

/-- `api.Hierarchy`: mapping from parent metric name to child names. -/
abbrev Hierarchy := List (String × List String)

/-- `contains` from `threescale/api/utilities.go`. -/
def goContains (key : String) : List String → Bool
  | [] => false
  | i :: rest => if key = i then true else goContains key rest

/-- Result of `Metrics.Add`: the map after the call, the returned int, and
whether a non-nil error was returned. -/
structure AddResult where
  metrics : Metrics
  value : Int
  isErr : Bool
  deriving DecidableEq

/-- `Metrics.Add` from `threescale/api/utilities.go`:
if `name` is present, reject a negative `current + value` (map untouched,
current value returned), otherwise store the sum; if `name` is absent it is
created with `value` unconditionally. -/
def metricsAdd (m : Metrics) (name : String) (value : Int) : AddResult :=
  match alookup m name with
  | some currentValue =>
    let newValue := currentValue + value
    if newValue < 0 then ⟨m, currentValue, true⟩
    else ⟨ainsert m name newValue, newValue, false⟩
  | none => ⟨ainsert m name value, value, false⟩

/-- `Metrics.Set` from `threescale/api/utilities.go`: rejects a negative
value (map untouched, error returned), otherwise overwrites. -/
def metricsSet (m : Metrics) (name : String) (value : Int) : Metrics × Bool :=
  if value < 0 then (m, true) else (ainsert m name value, false)

/-- `Metrics.Delete` from `threescale/api/utilities.go`. -/
def metricsDelete (m : Metrics) (name : String) : Metrics := aerase m name

/-- `Metrics.DeepCopy` from `threescale/api/utilities.go`: `clone[k] = v`
for every entry of the original, starting from an empty map. -/
def metricsDeepCopy (m : Metrics) : Metrics :=
  m.foldl (fun clone kv => ainsert clone kv.1 kv.2) []

theorem goContains_iff_mem (key : String) (l : List String) :
    goContains key l = true ↔ key ∈ l := by
  induction l with
  | nil => simp [goContains]
  | cons i rest ih =>
    by_cases h : key = i <;> simp [goContains, h, ih]

/-! ### AddHierarchyToMetrics / SubtractHierarchyFromMetrics as visit folds

Both functions range over the hierarchy map and, inside, over the metrics
map *while mutating it*.  A run of either function is therefore a sequence
of `RunStep`s: one per hierarchy entry (in some order, since Go map
iteration order is unspecified), each carrying the inner-loop visit order
`ord` over the metric keys.  `validStep` states exactly what the Go runtime
guarantees for the inner loop: every key present at loop start is visited
exactly once, and the only key the loop body can create (the step's parent)
may or may not additionally be visited; a key that is absent when visited
(deleted, or never created) contributes nothing, which `addVisit`/`subVisit`
encode by skipping keys whose lookup fails. -/

/-- One hierarchy entry of a run together with the inner-loop visit order. -/
structure RunStep where
  parent : String
  children : List String
  ord : List String
  deriving DecidableEq

/-- The hierarchy entry a step processes. -/
def stepPair (s : RunStep) : String × List String := (s.parent, s.children)

/-- One inner-loop iteration of `AddHierarchyToMetrics`:
`if contains(metric, children) { if known { Add } else { Set } }`,
with both error returns discarded, on the value the metric has now. -/
def addVisit (parent : String) (children : List String)
    (metrics : Metrics) (metric : String) : Metrics :=
  match alookup metrics metric with
  | none => metrics
  | some v =>
    if goContains metric children then
      match alookup metrics parent with
      | some _ => (metricsAdd metrics parent v).metrics
      | none => (metricsSet metrics parent v).1
    else metrics

/-- The inner loop of `AddHierarchyToMetrics` for one hierarchy entry. -/
def addParentStep (metrics : Metrics) (parent : String)
    (children : List String) (ord : List String) : Metrics :=
  ord.foldl (addVisit parent children) metrics

/-- A full run of `AddHierarchyToMetrics` (the `DeepCopy` of the receiver
is the identity at the level of map contents). -/
def addHierarchyRun (m : Metrics) : List RunStep → Metrics
  | [] => m
  | s :: rest => addHierarchyRun (addParentStep m s.parent s.children s.ord) rest

/-- One inner-loop iteration of `SubtractHierarchyFromMetrics`: a known
parent is decremented by the child's value, or deleted outright when the
decrement would go negative; unknown parents are skipped. -/
def subVisit (parent : String) (children : List String)
    (metrics : Metrics) (metric : String) : Metrics :=
  match alookup metrics metric with
  | none => metrics
  | some v =>
    if goContains metric children then
      match alookup metrics parent with
      | some value =>
        let newValue := value - v
        if newValue < 0 then aerase metrics parent
        else (metricsSet metrics parent newValue).1
      | none => metrics
    else metrics

/-- The inner loop of `SubtractHierarchyFromMetrics` for one entry. -/
def subParentStep (metrics : Metrics) (parent : String)
    (children : List String) (ord : List String) : Metrics :=
  ord.foldl (subVisit parent children) metrics

/-- A full run of `SubtractHierarchyFromMetrics`. -/
def subHierarchyRun (m : Metrics) : List RunStep → Metrics
  | [] => m
  | s :: rest => subHierarchyRun (subParentStep m s.parent s.children s.ord) rest

/-- Duplicate-freeness of a visit order, as a boolean. -/
def nodupB : List String → Bool
  | [] => true
  | x :: xs => !xs.contains x && nodupB xs

/-- A Go-realisable inner-loop visit order over map `metrics` for a step:
no key repeats, every key present at loop start occurs, and nothing
besides those keys and the possibly-created parent occurs. -/
def validStep (metrics : Metrics) (s : RunStep) : Bool :=
  nodupB s.ord &&
    (akeys metrics).all (fun k => goContains k s.ord) &&
    s.ord.all (fun k => goContains k (akeys metrics) || k == s.parent)

/-- Go-realisability of a whole `AddHierarchyToMetrics` run. -/
def validAddRun : Metrics → List RunStep → Bool
  | _, [] => true
  | m, s :: rest =>
    validStep m s && validAddRun (addParentStep m s.parent s.children s.ord) rest

/-- Go-realisability of a whole `SubtractHierarchyFromMetrics` run. -/
def validSubRun : Metrics → List RunStep → Bool
  | _, [] => true
  | m, s :: rest =>
    validStep m s && validSubRun (subParentStep m s.parent s.children s.ord) rest

/-- Whether the inner-loop iteration at this visit hits the discarded
error return of `Add` or `Set` (the only negative-value signals in
`AddHierarchyToMetrics`). -/
def addVisitErr (parent : String) (children : List String)
    (metrics : Metrics) (metric : String) : Bool :=
  match alookup metrics metric with
  | none => false
  | some v =>
    if goContains metric children then
      match alookup metrics parent with
      | some value => decide (value + v < 0)
      | none => decide (v < 0)
    else false

/-- Whether a discarded `Add`/`Set` error occurs in one inner loop. -/
def addParentStepErr (parent : String) (children : List String) :
    Metrics → List String → Bool
  | _, [] => false
  | metrics, k :: rest =>
    addVisitErr parent children metrics k ||
      addParentStepErr parent children (addVisit parent children metrics k) rest

/-- Whether a discarded `Add`/`Set` error occurs anywhere in a run of
`AddHierarchyToMetrics`: the code's own signal that an increment would
have driven a parent metric negative. -/
def addRunErr : Metrics → List RunStep → Bool
  | _, [] => false
  | m, s :: rest =>
    addParentStepErr s.parent s.children m s.ord ||
      addRunErr (addParentStep m s.parent s.children s.ord) rest

/-- Whether the inner-loop iteration at this visit takes the
`delete(metrics, parent)` branch of `SubtractHierarchyFromMetrics`. -/
def subVisitDel (parent : String) (children : List String)
    (metrics : Metrics) (metric : String) : Bool :=
  match alookup metrics metric with
  | none => false
  | some v =>
    if goContains metric children then
      match alookup metrics parent with
      | some value => decide (value - v < 0)
      | none => false
    else false

/-- Whether the delete branch fires during one inner loop. -/
def subParentStepDel (parent : String) (children : List String) :
    Metrics → List String → Bool
  | _, [] => false
  | metrics, k :: rest =>
    subVisitDel parent children metrics k ||
      subParentStepDel parent children (subVisit parent children metrics k) rest

/-- Whether, during a run of `SubtractHierarchyFromMetrics`, the delete
branch fires for parent `q`. -/
def subRunDeleted (q : String) : Metrics → List RunStep → Bool
  | _, [] => false
  | m, s :: rest =>
    (s.parent == q && subParentStepDel s.parent s.children m s.ord) ||
      subRunDeleted q (subParentStep m s.parent s.children s.ord) rest

/-! ### Snapshot reference semantics for the hierarchy operations -/

/-- Sum of the values the keys of `l` have in `m` (absent keys count 0). -/
def keySum (m : Metrics) (l : List String) : Int :=
  (l.map (fun x => (alookup m x).getD 0)).sum

/-- The total value the children `cs` carry in `m`, each distinct child
counted once. -/
def childSum (m : Metrics) (cs : List String) : Int := keySum m cs.dedup

/-- Whether any child in `cs` is present in `m`. -/
def hitsB (m : Metrics) (cs : List String) : Bool :=
  cs.any (fun x => (alookup m x).isSome)

/-- The snapshot-based reference reading of `AddHierarchyToMetrics`: every
parent whose children intersect the metrics gets its original value (0 if
absent) plus the sum of its children's original values; everything else is
untouched. -/
def refAddLookup (m : Metrics) (h : Hierarchy) (k : String) : Option Int :=
  match alookup h k with
  | some cs =>
    if hitsB m cs then some ((alookup m k).getD 0 + childSum m cs)
    else alookup m k
  | none => alookup m k

/-- The snapshot-based reference reading of `SubtractHierarchyFromMetrics`
in the regime where no parent is driven negative: every present parent is
decremented by the sum of its children's values. -/
def refSubLookup (m : Metrics) (h : Hierarchy) (k : String) : Option Int :=
  match alookup h k with
  | some cs => (alookup m k).map (fun b => b - childSum m cs)
  | none => alookup m k

/-- The hierarchy entries a run processes, in run order. -/
def pairsOf (steps : List RunStep) : Hierarchy := steps.map stepPair

/-- No parent of the hierarchy occurs among any children list: the
hierarchy is flat (single-level). -/
def flatB (h : Hierarchy) : Bool :=
  h.all fun pc => h.all fun qc => !goContains pc.1 qc.2

/-- All metric values are non-negative. -/
def nonnegB (m : Metrics) : Bool := m.all fun kv => decide (0 ≤ kv.2)

/-- The children of a step actually visited and counted: keys of the visit
order that are children and are present in the base map. -/
def visitedIn (base : Metrics) (cs : List String) (ord : List String) :
    List String :=
  ord.filter fun x => goContains x cs && (alookup base x).isSome

theorem nodupB_iff (l : List String) : nodupB l = true ↔ l.Nodup := by
  induction l with
  | nil => simp [nodupB]
  | cons x xs ih => simp [nodupB, ih, List.nodup_cons]

theorem validStep_spec {metrics : Metrics} {s : RunStep}
    (h : validStep metrics s = true) :
    s.ord.Nodup ∧ (∀ k ∈ akeys metrics, k ∈ s.ord) ∧
      (∀ k ∈ s.ord, k ∈ akeys metrics ∨ k = s.parent) := by
  simp only [validStep, Bool.and_eq_true, List.all_eq_true, Bool.or_eq_true,
    goContains_iff_mem, beq_iff_eq] at h
  exact ⟨(nodupB_iff s.ord).1 h.1.1, h.1.2, h.2⟩

theorem keySum_nil (m : Metrics) : keySum m [] = 0 := rfl

theorem keySum_cons (m : Metrics) (x : String) (l : List String) :
    keySum m (x :: l) = (alookup m x).getD 0 + keySum m l := by
  simp [keySum]

theorem keySum_congr {A B : Metrics} {l : List String}
    (h : ∀ x ∈ l, alookup A x = alookup B x) : keySum A l = keySum B l := by
  unfold keySum
  congr 1
  exact List.map_congr_left fun x hx => by rw [h x hx]

theorem keySum_nonneg {m : Metrics} {l : List String}
    (h : ∀ x ∈ l, ∀ v, alookup m x = some v → 0 ≤ v) : 0 ≤ keySum m l := by
  induction l with
  | nil => simp [keySum]
  | cons x xs ih =>
    rw [keySum_cons]
    have h1 : 0 ≤ (alookup m x).getD 0 := by
      cases hx : alookup m x with
      | none => simp
      | some v => simpa using h x (List.mem_cons_self x xs) v hx
    have h2 := ih fun x hx => h x (List.mem_cons_of_mem _ hx)
    omega

theorem keySum_perm {m : Metrics} {l₁ l₂ : List String} (h : l₁.Perm l₂) :
    keySum m l₁ = keySum m l₂ :=
  (h.map fun x => (alookup m x).getD 0).sum_eq

/-- Dropping the keys absent from `m` does not change `keySum`. -/
theorem keySum_filter_isSome (m : Metrics) (l : List String) :
    keySum m (l.filter fun x => (alookup m x).isSome) = keySum m l := by
  induction l with
  | nil => rfl
  | cons x xs ih =>
    by_cases hx : (alookup m x).isSome
    · simp only [List.filter_cons, hx, if_pos]
      rw [keySum_cons, keySum_cons, ih]
    · have hnone : alookup m x = none := by
        cases h : alookup m x with
        | none => rfl
        | some v => rw [h] at hx; simp at hx
      have hxf : (alookup m x).isSome = false := by rw [hnone]; rfl
      rw [keySum_cons, hnone]
      simp only [List.filter_cons, hxf, Bool.false_eq_true, if_false]
      rw [ih]
      simp

theorem childSum_congr {A B : Metrics} {cs : List String}
    (h : ∀ x ∈ cs, alookup A x = alookup B x) : childSum A cs = childSum B cs :=
  keySum_congr fun x hx => h x (List.mem_dedup.1 hx)

theorem hitsB_congr {A B : Metrics} {cs : List String}
    (h : ∀ x ∈ cs, alookup A x = alookup B x) : hitsB A cs = hitsB B cs := by
  induction cs with
  | nil => rfl
  | cons x xs ih =>
    unfold hitsB at ih ⊢
    simp only [List.any_cons]
    rw [h x (List.mem_cons_self x xs),
      ih fun y hy => h y (List.mem_cons_of_mem _ hy)]

theorem childSum_eq_zero_of_not_hits {m : Metrics} {cs : List String}
    (h : hitsB m cs = false) : childSum m cs = 0 := by
  have hall : ∀ x ∈ cs, alookup m x = none := by
    intro x hx
    cases hmx : alookup m x with
    | none => rfl
    | some v =>
      have hsome : hitsB m cs = true := by
        unfold hitsB
        rw [List.any_eq_true]
        exact ⟨x, hx, by rw [hmx]; rfl⟩
      rw [hsome] at h
      cases h
  unfold childSum keySum
  apply List.sum_eq_zero
  intro y hy
  rcases List.mem_map.1 hy with ⟨x, hx, rfl⟩
  rw [hall x (List.mem_dedup.1 hx)]
  rfl

/-! ### Equation lemmas for single visits -/

theorem addVisit_of_none {metrics : Metrics} {k : String} (p : String)
    (cs : List String) (h : alookup metrics k = none) :
    addVisit p cs metrics k = metrics := by
  unfold addVisit; rw [h]

theorem addVisit_of_not_child {metrics : Metrics} {k : String} {v : Int}
    (p : String) {cs : List String} (h : alookup metrics k = some v)
    (hc : goContains k cs = false) : addVisit p cs metrics k = metrics := by
  unfold addVisit; rw [h]; simp [hc]

theorem addVisit_of_add {metrics : Metrics} {k p : String} {v w : Int}
    {cs : List String} (h : alookup metrics k = some v)
    (hc : goContains k cs = true) (hp : alookup metrics p = some w)
    (hnn : ¬w + v < 0) : addVisit p cs metrics k = ainsert metrics p (w + v) := by
  unfold addVisit metricsAdd; rw [h]; simp [hc, hp, hnn]

theorem addVisit_of_add_err {metrics : Metrics} {k p : String} {v w : Int}
    {cs : List String} (h : alookup metrics k = some v)
    (hc : goContains k cs = true) (hp : alookup metrics p = some w)
    (hneg : w + v < 0) : addVisit p cs metrics k = metrics := by
  unfold addVisit metricsAdd; rw [h]; simp [hc, hp, hneg]

theorem addVisit_of_set {metrics : Metrics} {k p : String} {v : Int}
    {cs : List String} (h : alookup metrics k = some v)
    (hc : goContains k cs = true) (hp : alookup metrics p = none)
    (hnn : ¬v < 0) : addVisit p cs metrics k = ainsert metrics p v := by
  unfold addVisit metricsSet; rw [h]; simp [hc, hp, hnn]

theorem addVisit_of_set_err {metrics : Metrics} {k p : String} {v : Int}
    {cs : List String} (h : alookup metrics k = some v)
    (hc : goContains k cs = true) (hp : alookup metrics p = none)
    (hneg : v < 0) : addVisit p cs metrics k = metrics := by
  unfold addVisit metricsSet; rw [h]; simp [hc, hp, hneg]

theorem subVisit_of_none {metrics : Metrics} {k : String} (p : String)
    (cs : List String) (h : alookup metrics k = none) :
    subVisit p cs metrics k = metrics := by
  unfold subVisit; rw [h]

theorem subVisit_of_not_child {metrics : Metrics} {k : String} {v : Int}
    (p : String) {cs : List String} (h : alookup metrics k = some v)
    (hc : goContains k cs = false) : subVisit p cs metrics k = metrics := by
  unfold subVisit; rw [h]; simp [hc]

theorem subVisit_of_parent_absent {metrics : Metrics} {k p : String} {v : Int}
    {cs : List String} (h : alookup metrics k = some v)
    (hc : goContains k cs = true) (hp : alookup metrics p = none) :
    subVisit p cs metrics k = metrics := by
  unfold subVisit; rw [h]; simp [hc, hp]

theorem subVisit_of_delete {metrics : Metrics} {k p : String} {v w : Int}
    {cs : List String} (h : alookup metrics k = some v)
    (hc : goContains k cs = true) (hp : alookup metrics p = some w)
    (hneg : w - v < 0) : subVisit p cs metrics k = aerase metrics p := by
  unfold subVisit; rw [h]; simp [hc, hp, hneg]

theorem subVisit_of_set {metrics : Metrics} {k p : String} {v w : Int}
    {cs : List String} (h : alookup metrics k = some v)
    (hc : goContains k cs = true) (hp : alookup metrics p = some w)
    (hnn : ¬w - v < 0) : subVisit p cs metrics k = ainsert metrics p (w - v) := by
  unfold subVisit metricsSet; rw [h]; simp [hc, hp, hnn]

/-! ### Frame lemmas: a step only ever writes its own parent key -/

theorem alookup_addVisit_other {p : String} {cs : List String}
    (metrics : Metrics) (k : String) {q : String} (hq : q ≠ p) :
    alookup (addVisit p cs metrics k) q = alookup metrics q := by
  have hpq : ¬p = q := fun h => hq h.symm
  cases hk : alookup metrics k with
  | none => rw [addVisit_of_none p cs hk]
  | some v =>
    by_cases hc : goContains k cs
    · cases hp : alookup metrics p with
      | some w =>
        by_cases hneg : w + v < 0
        · rw [addVisit_of_add_err hk hc hp hneg]
        · rw [addVisit_of_add hk hc hp hneg, alookup_ainsert, if_neg hpq]
      | none =>
        by_cases hneg : v < 0
        · rw [addVisit_of_set_err hk hc hp hneg]
        · rw [addVisit_of_set hk hc hp hneg, alookup_ainsert, if_neg hpq]
    · rw [addVisit_of_not_child p hk (Bool.not_eq_true _ ▸ hc)]

theorem alookup_addParentStep_other {p : String} {cs : List String} :
    ∀ (ord : List String) (metrics : Metrics) {q : String}, q ≠ p →
      alookup (addParentStep metrics p cs ord) q = alookup metrics q := by
  intro ord
  induction ord with
  | nil => intro metrics q _; rfl
  | cons k rest ih =>
    intro metrics q hq
    exact (ih (addVisit p cs metrics k) hq).trans
      (alookup_addVisit_other _ _ hq)

theorem alookup_subVisit_other {p : String} {cs : List String}
    (metrics : Metrics) (k : String) {q : String} (hq : q ≠ p) :
    alookup (subVisit p cs metrics k) q = alookup metrics q := by
  have hpq : ¬p = q := fun h => hq h.symm
  cases hk : alookup metrics k with
  | none => rw [subVisit_of_none p cs hk]
  | some v =>
    by_cases hc : goContains k cs
    · cases hp : alookup metrics p with
      | some w =>
        by_cases hneg : w - v < 0
        · rw [subVisit_of_delete hk hc hp hneg, alookup_aerase, if_neg hpq]
        · rw [subVisit_of_set hk hc hp hneg, alookup_ainsert, if_neg hpq]
      | none => rw [subVisit_of_parent_absent hk hc hp]
    · rw [subVisit_of_not_child p hk (Bool.not_eq_true _ ▸ hc)]

theorem alookup_subParentStep_other {p : String} {cs : List String} :
    ∀ (ord : List String) (metrics : Metrics) {q : String}, q ≠ p →
      alookup (subParentStep metrics p cs ord) q = alookup metrics q := by
  intro ord
  induction ord with
  | nil => intro metrics q _; rfl
  | cons k rest ih =>
    intro metrics q hq
    exact (ih (subVisit p cs metrics k) hq).trans
      (alookup_subVisit_other _ _ hq)

/-! ### The inner loop of AddHierarchyToMetrics, characterised

Provided the parent is not among its own children and all relevant values
are non-negative, one inner loop adds to the parent exactly the sum of the
values of the visited present children, creating the parent if needed. -/

theorem addStep_fold (p : String) (cs : List String) (base : Metrics)
    (Hp : goContains p cs = false)
    (Hchild : ∀ x v, goContains x cs = true → alookup base x = some v → 0 ≤ v)
    (Hbase : ∀ v, alookup base p = some v → 0 ≤ v) :
    ∀ (ord : List String) (cur : Metrics) (S : Int) (started : Bool),
    (∀ q, q ≠ p → alookup cur q = alookup base q) →
    (alookup cur p =
      if started then some ((alookup base p).getD 0 + S) else alookup base p) →
    (started = false → S = 0) → 0 ≤ S →
    ∀ q, alookup (ord.foldl (addVisit p cs) cur) q =
      if q = p then
        (if started = true ∨ visitedIn base cs ord ≠ []
         then some ((alookup base p).getD 0 + S +
            keySum base (visitedIn base cs ord))
         else alookup base p)
      else alookup base q := by
  have hb0 : 0 ≤ (alookup base p).getD 0 := by
    cases hbp : alookup base p with
    | none => simp
    | some b => simpa using Hbase b hbp
  intro ord
  induction ord with
  | nil =>
    intro cur S started Hother Hcurp Hzero _ q
    simp only [List.foldl_nil, visitedIn, List.filter_nil]
    by_cases hq : q = p
    · subst hq
      cases started with
      | false =>
        simp only [Bool.false_eq_true, false_or, ne_eq, not_true_eq_false,
          if_false]
        simpa using Hcurp
      | true =>
        simp only [true_or, if_pos, if_true]
        rw [Hcurp]
        simp [keySum]
    · simp only [if_neg hq]
      exact Hother q hq
  | cons k rest ih =>
    intro cur S started Hother Hcurp Hzero HS q
    rw [List.foldl_cons]
    by_cases hk : k = p
    · subst hk
      have hskip : addVisit k cs cur k = cur := by
        cases h : alookup cur k with
        | none => exact addVisit_of_none k cs h
        | some v => exact addVisit_of_not_child k h Hp
      have hvis : visitedIn base cs (k :: rest) = visitedIn base cs rest := by
        simp [visitedIn, List.filter_cons, Hp]
      rw [hskip, hvis]
      exact ih cur S started Hother Hcurp Hzero HS q
    · have hcurk : alookup cur k = alookup base k := Hother k hk
      cases hbk : alookup base k with
      | none =>
        have hskip : addVisit p cs cur k = cur :=
          addVisit_of_none p cs (hcurk.trans hbk)
        have hvis : visitedIn base cs (k :: rest) = visitedIn base cs rest := by
          simp [visitedIn, List.filter_cons, hbk]
        rw [hskip, hvis]
        exact ih cur S started Hother Hcurp Hzero HS q
      | some v =>
        by_cases hc : goContains k cs
        · have hv : 0 ≤ v := Hchild k v hc hbk
          have hvis : visitedIn base cs (k :: rest) =
              k :: visitedIn base cs rest := by
            simp [visitedIn, List.filter_cons, hc, hbk]
          have hlk : alookup cur k = some v := hcurk.trans hbk
          -- the value the parent holds before this visit
          cases started with
          | true =>
            have hcp : alookup cur p =
                some ((alookup base p).getD 0 + S) := by simpa using Hcurp
            have hnn : ¬((alookup base p).getD 0 + S) + v < 0 := by omega
            rw [addVisit_of_add hlk hc hcp hnn]
            have hres := ih (ainsert cur p ((alookup base p).getD 0 + S + v))
              (S + v) true
              (fun q' hq' => by
                rw [alookup_ainsert, if_neg (fun h => hq' h.symm)]
                exact Hother q' hq')
              (by rw [alookup_ainsert, if_pos rfl]; simp; omega)
              (by intro h; cases h) (by omega) q
            rw [hres, hvis]
            by_cases hq : q = p
            · subst hq
              simp only [if_pos rfl, true_or, if_true]
              rw [keySum_cons, hbk]
              simp only [Option.getD_some]
              congr 1
              omega
            · simp [if_neg hq]
          | false =>
            have hS0 : S = 0 := Hzero rfl
            have hcp : alookup cur p = alookup base p := by simpa using Hcurp
            cases hbp : alookup base p with
            | some b =>
              have hbnn : 0 ≤ b := Hbase b hbp
              have hnn : ¬b + v < 0 := by omega
              rw [addVisit_of_add (hlk) hc (hcp.trans hbp) hnn]
              have hres := ih (ainsert cur p (b + v)) (S + v) true
                (fun q' hq' => by
                  rw [alookup_ainsert, if_neg (fun h => hq' h.symm)]
                  exact Hother q' hq')
                (by
                  rw [alookup_ainsert, if_pos rfl, hbp]
                  simp only [Option.getD_some]
                  congr 1
                  omega)
                (by intro h; cases h) (by omega) q
              rw [hres, hvis]
              by_cases hq : q = p
              · subst hq
                simp only [if_pos rfl, true_or, if_true]
                rw [if_pos (Or.inr (List.cons_ne_nil k (visitedIn base cs rest))),
                  keySum_cons, hbk, hbp]
                simp only [Option.getD_some, Option.getD_none, Option.some.injEq]
                omega
              · simp [if_neg hq]
            | none =>
              have hnn : ¬v < 0 := by omega
              rw [addVisit_of_set hlk hc (hcp.trans hbp) hnn]
              have hres := ih (ainsert cur p v) (S + v) true
                (fun q' hq' => by
                  rw [alookup_ainsert, if_neg (fun h => hq' h.symm)]
                  exact Hother q' hq')
                (by
                  rw [alookup_ainsert, if_pos rfl, hbp]
                  simp only [Option.getD_none]
                  congr 1
                  omega)
                (by intro h; cases h) (by omega) q
              rw [hres, hvis]
              by_cases hq : q = p
              · subst hq
                simp only [if_pos rfl, true_or, if_true]
                rw [if_pos (Or.inr (List.cons_ne_nil k (visitedIn base cs rest))),
                  keySum_cons, hbk, hbp]
                simp only [Option.getD_some, Option.getD_none, Option.some.injEq]
                omega
              · simp [if_neg hq]
        · have hcf : goContains k cs = false := Bool.not_eq_true _ ▸ hc
          have hlk2 : alookup cur k = some v := hcurk.trans hbk
          have hskip : addVisit p cs cur k = cur :=
            addVisit_of_not_child p hlk2 hcf
          have hvis : visitedIn base cs (k :: rest) = visitedIn base cs rest := by
            simp [visitedIn, List.filter_cons, hcf]
          rw [hskip, hvis]
          exact ih cur S started Hother Hcurp Hzero HS q

theorem visitedIn_keySum (base : Metrics) (cs ord : List String)
    (hnd : ord.Nodup) (hcov : ∀ k ∈ akeys base, k ∈ ord) :
    keySum base (visitedIn base cs ord) = childSum base cs := by
  have h1 : (visitedIn base cs ord).Perm
      (cs.dedup.filter fun x => (alookup base x).isSome) := by
    apply (List.perm_ext_iff_of_nodup (List.Nodup.filter _ hnd)
      (List.Nodup.filter _ cs.nodup_dedup)).2
    intro a
    simp only [visitedIn, List.mem_filter, Bool.and_eq_true,
      goContains_iff_mem, List.mem_dedup, decide_eq_true_eq]
    constructor
    · rintro ⟨_, hacs, hsome⟩
      exact ⟨hacs, hsome⟩
    · rintro ⟨hacs, hsome⟩
      exact ⟨hcov a ((alookup_isSome_iff_mem_akeys base a).1 hsome), hacs, hsome⟩
  rw [keySum_perm h1, keySum_filter_isSome]
  rfl

theorem visitedIn_ne_nil_iff (base : Metrics) (cs ord : List String)
    (hcov : ∀ k ∈ akeys base, k ∈ ord) :
    visitedIn base cs ord ≠ [] ↔ hitsB base cs = true := by
  constructor
  · intro h
    obtain ⟨x, hx⟩ := List.exists_mem_of_ne_nil _ h
    simp only [visitedIn, List.mem_filter, Bool.and_eq_true] at hx
    unfold hitsB
    rw [List.any_eq_true]
    exact ⟨x, (goContains_iff_mem x cs).1 hx.2.1, hx.2.2⟩
  · intro h
    rw [hitsB, List.any_eq_true] at h
    obtain ⟨x, hxcs, hxsome⟩ := h
    apply List.ne_nil_of_mem (a := x)
    simp only [visitedIn, List.mem_filter, Bool.and_eq_true]
    exact ⟨hcov x ((alookup_isSome_iff_mem_akeys base x).1 hxsome),
      (goContains_iff_mem x cs).2 hxcs, hxsome⟩

/-- One inner loop of `AddHierarchyToMetrics` over a Go-realisable visit
order: the parent ends up with its previous value (0 if absent) plus the
sum of its children's values, created only when some child is present;
nothing else changes. -/
theorem addParentStep_spec (base : Metrics) (p : String) (cs ord : List String)
    (Hvalid : validStep base ⟨p, cs, ord⟩ = true)
    (Hp : goContains p cs = false)
    (Hchild : ∀ x v, goContains x cs = true → alookup base x = some v → 0 ≤ v)
    (Hbase : ∀ v, alookup base p = some v → 0 ≤ v) :
    ∀ q, alookup (addParentStep base p cs ord) q =
      if q = p then
        (if hitsB base cs = true
         then some ((alookup base p).getD 0 + childSum base cs)
         else alookup base p)
      else alookup base q := by
  obtain ⟨hnd, hcov, _⟩ := validStep_spec Hvalid
  have hmain := addStep_fold p cs base Hp Hchild Hbase ord base 0 false
    (fun q _ => rfl) (by simp) (fun _ => rfl) le_rfl
  intro q
  rw [show addParentStep base p cs ord = ord.foldl (addVisit p cs) base from rfl,
    hmain q]
  by_cases hq : q = p
  · rw [if_pos hq, if_pos hq]
    by_cases hh : hitsB base cs = true
    · rw [if_pos hh,
        if_pos (Or.inr ((visitedIn_ne_nil_iff base cs ord hcov).2 hh)),
        visitedIn_keySum base cs ord hnd hcov]
      congr 1
      omega
    · have hnil : visitedIn base cs ord = [] := by
        by_contra hcon
        exact hh ((visitedIn_ne_nil_iff base cs ord hcov).1 hcon)
      rw [if_neg hh, if_neg]
      rintro (hfalse | hne)
      · cases hfalse
      · exact hne hnil
  · rw [if_neg hq, if_neg hq]

theorem refAddLookup_of_none {h : Hierarchy} {k : String} (m : Metrics)
    (hk : alookup h k = none) : refAddLookup m h k = alookup m k := by
  unfold refAddLookup
  rw [hk]

theorem refAddLookup_of_some {h : Hierarchy} {k : String} {cs : List String}
    (m : Metrics) (hk : alookup h k = some cs) :
    refAddLookup m h k =
      if hitsB m cs = true then some ((alookup m k).getD 0 + childSum m cs)
      else alookup m k := by
  unfold refAddLookup
  rw [hk]

theorem refSubLookup_of_none {h : Hierarchy} {k : String} (m : Metrics)
    (hk : alookup h k = none) : refSubLookup m h k = alookup m k := by
  unfold refSubLookup
  rw [hk]

theorem refSubLookup_of_some {h : Hierarchy} {k : String} {cs : List String}
    (m : Metrics) (hk : alookup h k = some cs) :
    refSubLookup m h k = (alookup m k).map (fun b => b - childSum m cs) := by
  unfold refSubLookup
  rw [hk]

theorem alookup_perm {κ α : Type} [DecidableEq κ] {l₁ l₂ : List (κ × α)}
    (h : l₁.Perm l₂) (hnd : nodupKeys l₂) (k : κ) :
    alookup l₁ k = alookup l₂ k := by
  cases h₁ : alookup l₁ k with
  | some v =>
    exact (alookup_eq_some_of_mem hnd (h.mem_iff.1 (mem_of_alookup_eq_some h₁))).symm
  | none =>
    have h2 : k ∉ akeys l₁ := (alookup_eq_none_iff_not_mem_akeys _ _).1 h₁
    have h3 : k ∉ akeys l₂ := fun hc => h2 ((h.map Prod.fst).mem_iff.2 hc)
    exact ((alookup_eq_none_iff_not_mem_akeys _ _).2 h3).symm

theorem akeys_pairsOf (steps : List RunStep) :
    akeys (pairsOf steps) = steps.map RunStep.parent := by
  simp [akeys, pairsOf, stepPair]

/-- A full Go-realisable run of `AddHierarchyToMetrics` over non-negative
metrics and a hierarchy in which no parent occurs as a child computes the
snapshot-based reference result, processing-order notwithstanding. -/
theorem addRun_spec :
    ∀ (steps : List RunStep) (m : Metrics),
    (∀ x v, alookup m x = some v → 0 ≤ v) →
    validAddRun m steps = true →
    (∀ s ∈ steps, ∀ t ∈ steps, goContains s.parent t.children = false) →
    (steps.map RunStep.parent).Nodup →
    ∀ q, alookup (addHierarchyRun m steps) q = refAddLookup m (pairsOf steps) q := by
  intro steps
  induction steps with
  | nil =>
    intro m _ _ _ _ q
    simp [addHierarchyRun, refAddLookup, pairsOf, alookup]
  | cons s rest ih =>
    intro m Hnn Hvalid Hflat Hpnd q
    have hv : validStep m s = true ∧
        validAddRun (addParentStep m s.parent s.children s.ord) rest = true := by
      simpa [validAddRun, Bool.and_eq_true] using Hvalid
    have hstep := addParentStep_spec m s.parent s.children s.ord hv.1
      (Hflat s (List.mem_cons_self s rest) s (List.mem_cons_self s rest))
      (fun x v _ hx => Hnn x v hx)
      (fun v hv' => Hnn _ v hv')
    have Hnn1 : ∀ x v,
        alookup (addParentStep m s.parent s.children s.ord) x = some v → 0 ≤ v := by
      intro x v hx
      rw [hstep x] at hx
      by_cases hxp : x = s.parent
      · rw [if_pos hxp] at hx
        by_cases hh : hitsB m s.children = true
        · rw [if_pos hh] at hx
          have hget : 0 ≤ (alookup m s.parent).getD 0 := by
            cases hb : alookup m s.parent with
            | none => simp
            | some b => simpa using Hnn _ b hb
          have hcsum : 0 ≤ childSum m s.children :=
            keySum_nonneg fun y _ w hw => Hnn y w hw
          injection hx with hx
          omega
        · rw [if_neg hh] at hx
          exact Hnn _ v hx
      · rw [if_neg hxp] at hx
        exact Hnn x v hx
    have hpnd' : (rest.map RunStep.parent).Nodup ∧
        s.parent ∉ rest.map RunStep.parent := by
      have := Hpnd
      simp only [List.map_cons, List.nodup_cons] at this
      exact ⟨this.2, this.1⟩
    have hres := ih (addParentStep m s.parent s.children s.ord) Hnn1 hv.2
      (fun s' hs' t' ht' =>
        Hflat s' (List.mem_cons_of_mem s hs') t' (List.mem_cons_of_mem s ht'))
      hpnd'.1 q
    rw [show addHierarchyRun m (s :: rest) =
      addHierarchyRun (addParentStep m s.parent s.children s.ord) rest from rfl,
      hres]
    by_cases hq : s.parent = q
    · subst hq
      have hnone : alookup (pairsOf rest) s.parent = none := by
        rw [alookup_eq_none_iff_not_mem_akeys, akeys_pairsOf]
        exact hpnd'.2
      have hsome : alookup (pairsOf (s :: rest)) s.parent = some s.children := by
        rw [show pairsOf (s :: rest) =
          (s.parent, s.children) :: pairsOf rest from rfl]
        simp [alookup]
      rw [refAddLookup_of_none _ hnone, refAddLookup_of_some _ hsome,
        hstep s.parent, if_pos rfl]
    · have hskip : alookup (pairsOf (s :: rest)) q = alookup (pairsOf rest) q := by
        rw [show pairsOf (s :: rest) =
          (s.parent, s.children) :: pairsOf rest from rfl]
        simp [alookup, hq]
      cases hpq : alookup (pairsOf rest) q with
      | none =>
        rw [refAddLookup_of_none _ hpq, refAddLookup_of_none _ (hskip.trans hpq),
          hstep q, if_neg (fun h => hq h.symm)]
      | some csq =>
        obtain ⟨t, htmem, htpair⟩ : ∃ t ∈ rest, stepPair t = (q, csq) := by
          have hmem := mem_of_alookup_eq_some hpq
          simp only [pairsOf, List.mem_map] at hmem
          obtain ⟨t, ht, hte⟩ := hmem
          exact ⟨t, ht, hte⟩
        have htc : t.children = csq := congrArg Prod.snd htpair
        have hsp_not : goContains s.parent csq = false := by
          rw [← htc]
          exact Hflat s (List.mem_cons_self s rest) t (List.mem_cons_of_mem s htmem)
        have hchild_eq : ∀ x ∈ csq,
            alookup (addParentStep m s.parent s.children s.ord) x = alookup m x := by
          intro x hx
          have hxne : x ≠ s.parent := by
            intro he
            rw [he] at hx
            rw [(goContains_iff_mem s.parent csq).2 hx] at hsp_not
            cases hsp_not
          rw [hstep x, if_neg hxne]
        rw [refAddLookup_of_some _ hpq, refAddLookup_of_some _ (hskip.trans hpq),
          childSum_congr hchild_eq, hitsB_congr hchild_eq,
          hstep q, if_neg (show ¬q = s.parent from fun h => hq h.symm)]

theorem keySum_visitedIn_nonneg {base : Metrics} {cs : List String}
    (Hchild : ∀ x v, goContains x cs = true → alookup base x = some v → 0 ≤ v)
    (ord : List String) : 0 ≤ keySum base (visitedIn base cs ord) := by
  apply keySum_nonneg
  intro x hx w hw
  simp only [visitedIn, List.mem_filter, Bool.and_eq_true] at hx
  exact Hchild x w hx.2.1 hw

/-- The inner loop of `SubtractHierarchyFromMetrics`, characterised: when
the parent's value is large enough that no intermediate decrement goes
negative, the parent is decremented by the sum of the visited children's
values and nothing is deleted. -/
theorem subStep_fold (p : String) (cs : List String) (base : Metrics)
    (Hp : goContains p cs = false)
    (Hchild : ∀ x v, goContains x cs = true → alookup base x = some v → 0 ≤ v) :
    ∀ (ord : List String) (cur : Metrics) (S : Int),
    (∀ q, q ≠ p → alookup cur q = alookup base q) →
    (alookup cur p = (alookup base p).map (fun b => b - S)) →
    0 ≤ S →
    (∀ b, alookup base p = some b →
      S + keySum base (visitedIn base cs ord) ≤ b) →
    ∀ q, alookup (ord.foldl (subVisit p cs) cur) q =
      if q = p then
        (alookup base p).map (fun b => b - (S + keySum base (visitedIn base cs ord)))
      else alookup base q := by
  intro ord
  induction ord with
  | nil =>
    intro cur S Hother Hcurp _ _ q
    simp only [List.foldl_nil, visitedIn, List.filter_nil]
    by_cases hq : q = p
    · subst hq
      rw [Hcurp]
      cases hb : alookup base q <;> simp [keySum]
    · rw [if_neg hq]
      exact Hother q hq
  | cons k rest ih =>
    intro cur S Hother Hcurp HS Hbound q
    rw [List.foldl_cons]
    by_cases hk : k = p
    · subst hk
      have hskip : subVisit k cs cur k = cur := by
        cases h : alookup cur k with
        | none => exact subVisit_of_none k cs h
        | some v => exact subVisit_of_not_child k h Hp
      have hvis : visitedIn base cs (k :: rest) = visitedIn base cs rest := by
        simp [visitedIn, List.filter_cons, Hp]
      rw [hskip, hvis]
      exact ih cur S Hother Hcurp HS (hvis ▸ Hbound) q
    · have hcurk : alookup cur k = alookup base k := Hother k hk
      cases hbk : alookup base k with
      | none =>
        have hskip : subVisit p cs cur k = cur :=
          subVisit_of_none p cs (hcurk.trans hbk)
        have hvis : visitedIn base cs (k :: rest) = visitedIn base cs rest := by
          simp [visitedIn, List.filter_cons, hbk]
        rw [hskip, hvis]
        exact ih cur S Hother Hcurp HS (hvis ▸ Hbound) q
      | some v =>
        by_cases hc : goContains k cs
        · have hv : 0 ≤ v := Hchild k v hc hbk
          have hvis : visitedIn base cs (k :: rest) =
              k :: visitedIn base cs rest := by
            simp [visitedIn, List.filter_cons, hc, hbk]
          have hlk : alookup cur k = some v := hcurk.trans hbk
          have hksum : keySum base (visitedIn base cs (k :: rest)) =
              v + keySum base (visitedIn base cs rest) := by
            rw [hvis, keySum_cons, hbk]
            simp
          cases hbp : alookup base p with
          | none =>
            have hcp : alookup cur p = none := by
              rw [Hcurp, hbp]
              rfl
            have hskip : subVisit p cs cur k = cur :=
              subVisit_of_parent_absent hlk hc hcp
            rw [hskip]
            have hres := ih cur (S + v) Hother
              (by rw [Hcurp, hbp]; rfl)
              (by omega)
              (by intro b hb; rw [hbp] at hb; cases hb) q
            rw [hres]
            by_cases hq : q = p
            · rw [if_pos hq, if_pos hq, hbp]
              rfl
            · rw [if_neg hq, if_neg hq]
          | some b =>
            have hcp : alookup cur p = some (b - S) := by
              rw [Hcurp, hbp]
              rfl
            have hrest_nn : 0 ≤ keySum base (visitedIn base cs rest) :=
              keySum_visitedIn_nonneg Hchild rest
            have hb : S + (v + keySum base (visitedIn base cs rest)) ≤ b := by
              have := Hbound b hbp
              rw [hksum] at this
              omega
            have hnn : ¬(b - S) - v < 0 := by omega
            rw [subVisit_of_set hlk hc hcp hnn]
            have hres := ih (ainsert cur p (b - S - v)) (S + v)
              (fun q' hq' => by
                rw [alookup_ainsert, if_neg (fun h => hq' h.symm)]
                exact Hother q' hq')
              (by
                rw [alookup_ainsert, if_pos rfl, hbp]
                simp only [Option.map_some']
                congr 1
                omega)
              (by omega)
              (by
                intro b' hb'
                rw [hbp] at hb'
                injection hb' with hb'
                omega) q
            rw [hres]
            by_cases hq : q = p
            · rw [if_pos hq, if_pos hq, hbp, hksum]
              simp only [Option.map_some', Option.some.injEq]
              omega
            · rw [if_neg hq, if_neg hq]
        · have hcf : goContains k cs = false := Bool.not_eq_true _ ▸ hc
          have hlk2 : alookup cur k = some v := hcurk.trans hbk
          have hskip : subVisit p cs cur k = cur :=
            subVisit_of_not_child p hlk2 hcf
          have hvis : visitedIn base cs (k :: rest) = visitedIn base cs rest := by
            simp [visitedIn, List.filter_cons, hcf]
          rw [hskip, hvis]
          exact ih cur S Hother Hcurp HS (hvis ▸ Hbound) q

/-- One inner loop of `SubtractHierarchyFromMetrics` over a Go-realisable
visit order, when the parent's value dominates the sum of its children. -/
theorem subParentStep_spec (base : Metrics) (p : String) (cs ord : List String)
    (Hvalid : validStep base ⟨p, cs, ord⟩ = true)
    (Hp : goContains p cs = false)
    (Hchild : ∀ x v, goContains x cs = true → alookup base x = some v → 0 ≤ v)
    (Hbound : ∀ b, alookup base p = some b → childSum base cs ≤ b) :
    ∀ q, alookup (subParentStep base p cs ord) q =
      if q = p then (alookup base p).map (fun b => b - childSum base cs)
      else alookup base q := by
  obtain ⟨hnd, hcov, _⟩ := validStep_spec Hvalid
  have hks := visitedIn_keySum base cs ord hnd hcov
  have hmain := subStep_fold p cs base Hp Hchild ord base 0
    (fun q _ => rfl)
    (by cases hb : alookup base p <;> simp [hb])
    le_rfl
    (by
      intro b hb
      rw [hks]
      have := Hbound b hb
      omega)
  intro q
  rw [show subParentStep base p cs ord = ord.foldl (subVisit p cs) base from rfl,
    hmain q]
  by_cases hq : q = p
  · rw [if_pos hq, if_pos hq, hks]
    cases hb : alookup base p
    · rfl
    · simp only [Option.map_some', Option.some.injEq]
      omega
  · rw [if_neg hq, if_neg hq]

/-- A full Go-realisable run of `SubtractHierarchyFromMetrics` over
non-negative metrics and a flat hierarchy whose present parents dominate
their children's sums computes the snapshot-based decrement. -/
theorem subRun_spec :
    ∀ (steps : List RunStep) (m : Metrics),
    (∀ x v, alookup m x = some v → 0 ≤ v) →
    validSubRun m steps = true →
    (∀ s ∈ steps, ∀ t ∈ steps, goContains s.parent t.children = false) →
    (steps.map RunStep.parent).Nodup →
    (∀ s ∈ steps, ∀ b, alookup m s.parent = some b → childSum m s.children ≤ b) →
    ∀ q, alookup (subHierarchyRun m steps) q = refSubLookup m (pairsOf steps) q := by
  intro steps
  induction steps with
  | nil =>
    intro m _ _ _ _ _ q
    simp [subHierarchyRun, refSubLookup, pairsOf, alookup]
  | cons s rest ih =>
    intro m Hnn Hvalid Hflat Hpnd Hbound q
    have hv : validStep m s = true ∧
        validSubRun (subParentStep m s.parent s.children s.ord) rest = true := by
      simpa [validSubRun, Bool.and_eq_true] using Hvalid
    have hstep := subParentStep_spec m s.parent s.children s.ord hv.1
      (Hflat s (List.mem_cons_self s rest) s (List.mem_cons_self s rest))
      (fun x v _ hx => Hnn x v hx)
      (Hbound s (List.mem_cons_self s rest))
    have hpnd' : (rest.map RunStep.parent).Nodup ∧
        s.parent ∉ rest.map RunStep.parent := by
      have := Hpnd
      simp only [List.map_cons, List.nodup_cons] at this
      exact ⟨this.2, this.1⟩
    have Hnn1 : ∀ x v,
        alookup (subParentStep m s.parent s.children s.ord) x = some v → 0 ≤ v := by
      intro x v hx
      rw [hstep x] at hx
      by_cases hxp : x = s.parent
      · rw [if_pos hxp] at hx
        cases hb : alookup m s.parent with
        | none => rw [hb] at hx; cases hx
        | some b =>
          rw [hb] at hx
          simp only [Option.map_some', Option.some.injEq] at hx
          have := Hbound s (List.mem_cons_self s rest) b hb
          omega
      · rw [if_neg hxp] at hx
        exact Hnn x v hx
    have hflat_rest : ∀ s' ∈ rest, ∀ t' ∈ rest,
        goContains s'.parent t'.children = false := fun s' hs' t' ht' =>
      Hflat s' (List.mem_cons_of_mem s hs') t' (List.mem_cons_of_mem s ht')
    have Hbound1 : ∀ t ∈ rest, ∀ b,
        alookup (subParentStep m s.parent s.children s.ord) t.parent = some b →
        childSum (subParentStep m s.parent s.children s.ord) t.children ≤ b := by
      intro t htmem b hb
      have htne : t.parent ≠ s.parent := by
        intro he
        exact hpnd'.2 (he ▸ List.mem_map_of_mem RunStep.parent htmem)
      have hchild_eq : ∀ x ∈ t.children,
          alookup (subParentStep m s.parent s.children s.ord) x = alookup m x := by
        intro x hx
        have hxne : x ≠ s.parent := by
          intro he
          have := Hflat s (List.mem_cons_self s rest) t (List.mem_cons_of_mem s htmem)
          rw [← he, (goContains_iff_mem x t.children).2 hx] at this
          cases this
        rw [hstep x, if_neg hxne]
      rw [hstep t.parent, if_neg htne] at hb
      rw [childSum_congr hchild_eq]
      exact Hbound t (List.mem_cons_of_mem s htmem) b hb
    have hres := ih (subParentStep m s.parent s.children s.ord) Hnn1 hv.2
      hflat_rest hpnd'.1 Hbound1 q
    rw [show subHierarchyRun m (s :: rest) =
      subHierarchyRun (subParentStep m s.parent s.children s.ord) rest from rfl,
      hres]
    by_cases hq : s.parent = q
    · subst hq
      have hnone : alookup (pairsOf rest) s.parent = none := by
        rw [alookup_eq_none_iff_not_mem_akeys, akeys_pairsOf]
        exact hpnd'.2
      have hsome : alookup (pairsOf (s :: rest)) s.parent = some s.children := by
        rw [show pairsOf (s :: rest) =
          (s.parent, s.children) :: pairsOf rest from rfl]
        simp [alookup]
      rw [refSubLookup_of_none _ hnone, refSubLookup_of_some _ hsome,
        hstep s.parent, if_pos rfl]
    · have hskip : alookup (pairsOf (s :: rest)) q = alookup (pairsOf rest) q := by
        rw [show pairsOf (s :: rest) =
          (s.parent, s.children) :: pairsOf rest from rfl]
        simp [alookup, hq]
      cases hpq : alookup (pairsOf rest) q with
      | none =>
        rw [refSubLookup_of_none _ hpq, refSubLookup_of_none _ (hskip.trans hpq),
          hstep q, if_neg (fun h => hq h.symm)]
      | some csq =>
        obtain ⟨t, htmem, htpair⟩ : ∃ t ∈ rest, stepPair t = (q, csq) := by
          have hmem := mem_of_alookup_eq_some hpq
          simp only [pairsOf, List.mem_map] at hmem
          obtain ⟨t, ht, hte⟩ := hmem
          exact ⟨t, ht, hte⟩
        have htc : t.children = csq := congrArg Prod.snd htpair
        have hsp_not : goContains s.parent csq = false := by
          rw [← htc]
          exact Hflat s (List.mem_cons_self s rest) t (List.mem_cons_of_mem s htmem)
        have hchild_eq : ∀ x ∈ csq,
            alookup (subParentStep m s.parent s.children s.ord) x = alookup m x := by
          intro x hx
          have hxne : x ≠ s.parent := by
            intro he
            rw [he] at hx
            rw [(goContains_iff_mem s.parent csq).2 hx] at hsp_not
            cases hsp_not
          rw [hstep x, if_neg hxne]
        rw [refSubLookup_of_some _ hpq, refSubLookup_of_some _ (hskip.trans hpq),
          childSum_congr hchild_eq,
          hstep q, if_neg (show ¬q = s.parent from fun h => hq h.symm)]

/-! ### SubtractHierarchyFromMetrics never creates keys; deletes are final -/

theorem subVisit_absent {metrics : Metrics} {q : String} (p : String)
    (cs : List String) (k : String) (h : alookup metrics q = none) :
    alookup (subVisit p cs metrics k) q = none := by
  cases hk : alookup metrics k with
  | none => rw [subVisit_of_none p cs hk]; exact h
  | some v =>
    by_cases hc : goContains k cs
    · cases hp : alookup metrics p with
      | none => rw [subVisit_of_parent_absent hk hc hp]; exact h
      | some w =>
        have hpq : ¬p = q := by
          intro he
          rw [he, h] at hp
          cases hp
        by_cases hneg : w - v < 0
        · rw [subVisit_of_delete hk hc hp hneg, alookup_aerase]
          by_cases hpq2 : p = q
          · rw [if_pos hpq2]
          · rw [if_neg hpq2]; exact h
        · rw [subVisit_of_set hk hc hp hneg, alookup_ainsert, if_neg hpq]
          exact h
    · rw [subVisit_of_not_child p hk (Bool.not_eq_true _ ▸ hc)]
      exact h

theorem subParentStep_absent {p : String} {cs : List String} {q : String} :
    ∀ (ord : List String) (metrics : Metrics), alookup metrics q = none →
      alookup (subParentStep metrics p cs ord) q = none := by
  intro ord
  induction ord with
  | nil => intro metrics h; exact h
  | cons k rest ih =>
    intro metrics h
    exact ih (subVisit p cs metrics k) (subVisit_absent p cs k h)

theorem subRun_absent {q : String} :
    ∀ (steps : List RunStep) (m : Metrics), alookup m q = none →
      alookup (subHierarchyRun m steps) q = none := by
  intro steps
  induction steps with
  | nil => intro m h; exact h
  | cons s rest ih =>
    intro m h
    exact ih _ (subParentStep_absent s.ord m h)

theorem subVisitDel_spec {p : String} {cs : List String} {metrics : Metrics}
    {k : String} (h : subVisitDel p cs metrics k = true) :
    alookup (subVisit p cs metrics k) p = none := by
  unfold subVisitDel at h
  cases hk : alookup metrics k with
  | none => simp [hk] at h
  | some v =>
    simp only [hk] at h
    by_cases hc : goContains k cs
    · rw [if_pos hc] at h
      cases hp : alookup metrics p with
      | none => simp [hp] at h
      | some w =>
        simp only [hp] at h
        have hneg : w - v < 0 := of_decide_eq_true h
        rw [subVisit_of_delete hk hc hp hneg, alookup_aerase, if_pos rfl]
    · rw [if_neg hc] at h
      simp at h

theorem subParentStepDel_spec {p : String} {cs : List String} :
    ∀ (ord : List String) (metrics : Metrics),
      subParentStepDel p cs metrics ord = true →
      alookup (subParentStep metrics p cs ord) p = none := by
  intro ord
  induction ord with
  | nil => intro metrics h; cases h
  | cons k rest ih =>
    intro metrics h
    unfold subParentStepDel at h
    rw [Bool.or_eq_true] at h
    rcases h with h1 | h1
    · exact subParentStep_absent rest _ (subVisitDel_spec h1)
    · exact ih (subVisit p cs metrics k) h1

theorem subRunDeleted_spec (q : String) :
    ∀ (steps : List RunStep) (m : Metrics), subRunDeleted q m steps = true →
      alookup (subHierarchyRun m steps) q = none := by
  intro steps
  induction steps with
  | nil => intro m h; cases h
  | cons s rest ih =>
    intro m h
    unfold subRunDeleted at h
    rw [Bool.or_eq_true] at h
    rcases h with h1 | h1
    · rw [Bool.and_eq_true] at h1
      rcases h1 with ⟨hpq, hdel⟩
      have hq : s.parent = q := by simpa using hpq
      have habs := subParentStepDel_spec s.ord m hdel
      apply subRun_absent rest
      rw [← hq]
      exact habs
    · exact ih _ h1

/-! ### AddHierarchyToMetrics leaves an unknown parent absent when all its
present children are negative (the discarded `Set` error) -/

theorem addParentStep_id_of_neg (p : String) (cs : List String) :
    ∀ (ord : List String) (cur : Metrics), alookup cur p = none →
      (∀ x v, goContains x cs = true → alookup cur x = some v → v < 0) →
      addParentStep cur p cs ord = cur := by
  intro ord
  induction ord with
  | nil => intro cur _ _; rfl
  | cons k rest ih =>
    intro cur habs hneg
    have hvisit : addVisit p cs cur k = cur := by
      cases hk : alookup cur k with
      | none => exact addVisit_of_none p cs hk
      | some v =>
        by_cases hc : goContains k cs
        · exact addVisit_of_set_err hk hc habs (hneg k v hc hk)
        · exact addVisit_of_not_child p hk (Bool.not_eq_true _ ▸ hc)
    show (k :: rest).foldl (addVisit p cs) cur = cur
    rw [List.foldl_cons, hvisit]
    exact ih cur habs hneg

theorem addRun_absent_parent (p : String) (cs : List String) :
    ∀ (steps : List RunStep) (m : Metrics), alookup m p = none →
      (∀ x v, goContains x cs = true → alookup m x = some v → v < 0) →
      (∀ s ∈ steps, goContains s.parent cs = false) →
      (∀ s ∈ steps, s.parent = p → s.children = cs) →
      alookup (addHierarchyRun m steps) p = none := by
  intro steps
  induction steps with
  | nil => intro m habs _ _ _; exact habs
  | cons s rest ih =>
    intro m habs hneg hnochild hchildof
    by_cases hsp : s.parent = p
    · have hcs : s.children = cs := hchildof s (List.mem_cons_self s rest) hsp
      have hid : addParentStep m s.parent s.children s.ord = m := by
        rw [hsp, hcs]
        exact addParentStep_id_of_neg p cs s.ord m habs hneg
      show alookup (addHierarchyRun (addParentStep m s.parent s.children s.ord) rest) p = none
      rw [hid]
      exact ih m habs hneg
        (fun t ht => hnochild t (List.mem_cons_of_mem s ht))
        (fun t ht => hchildof t (List.mem_cons_of_mem s ht))
    · have habs1 : alookup (addParentStep m s.parent s.children s.ord) p = none := by
        rw [alookup_addParentStep_other s.ord m
          (show p ≠ s.parent from fun he => hsp he.symm)]
        exact habs
      have hneg1 : ∀ x v, goContains x cs = true →
          alookup (addParentStep m s.parent s.children s.ord) x = some v → v < 0 := by
        intro x v hxc hx
        have hxne : x ≠ s.parent := by
          intro he
          have := hnochild s (List.mem_cons_self s rest)
          rw [← he, hxc] at this
          cases this
        rw [alookup_addParentStep_other s.ord m hxne] at hx
        exact hneg x v hxc hx
      exact ih _ habs1 hneg1
        (fun t ht => hnochild t (List.mem_cons_of_mem s ht))
        (fun t ht => hchildof t (List.mem_cons_of_mem s ht))

/-! ### Bridges from boolean side conditions to propositional ones -/

theorem nonnegB_spec {m : Metrics} (h : nonnegB m = true) :
    ∀ x v, alookup m x = some v → 0 ≤ v := by
  intro x v hx
  have := List.all_eq_true.1 h _ (mem_of_alookup_eq_some hx)
  simpa using this

theorem flatB_spec {h : Hierarchy} (hf : flatB h = true) :
    ∀ pc ∈ h, ∀ qc ∈ h, goContains pc.1 qc.2 = false := by
  intro pc hpc qc hqc
  have h1 := List.all_eq_true.1 hf pc hpc
  have h2 := List.all_eq_true.1 h1 qc hqc
  simpa using h2

/-- Run-level specification of `AddHierarchyToMetrics` against the
hierarchy map itself (rather than the run's processing order). -/
theorem addRun_ref (m : Metrics) (h : Hierarchy) (steps : List RunStep)
    (hperm : (pairsOf steps).Perm h) (hnd : nodupKeys h)
    (hvalid : validAddRun m steps = true) (hflat : flatB h = true)
    (hnn : ∀ x v, alookup m x = some v → 0 ≤ v) :
    ∀ q, alookup (addHierarchyRun m steps) q = refAddLookup m h q := by
  have hflat' : ∀ s ∈ steps, ∀ t ∈ steps,
      goContains s.parent t.children = false := fun s hs t ht =>
    flatB_spec hflat (stepPair s)
      (hperm.mem_iff.1 (List.mem_map_of_mem stepPair hs)) (stepPair t)
      (hperm.mem_iff.1 (List.mem_map_of_mem stepPair ht))
  have hpnd : (steps.map RunStep.parent).Nodup := by
    have h2 : (akeys (pairsOf steps)).Nodup := ((hperm.map Prod.fst).nodup_iff).2 hnd
    rwa [akeys_pairsOf] at h2
  intro q
  rw [addRun_spec steps m hnn hvalid hflat' hpnd q]
  unfold refAddLookup
  rw [alookup_perm hperm hnd q]

/-- Run-level specification of `SubtractHierarchyFromMetrics` against the
hierarchy map itself. -/
theorem subRun_ref (m : Metrics) (h : Hierarchy) (steps : List RunStep)
    (hperm : (pairsOf steps).Perm h) (hnd : nodupKeys h)
    (hvalid : validSubRun m steps = true) (hflat : flatB h = true)
    (hnn : ∀ x v, alookup m x = some v → 0 ≤ v)
    (hbound : ∀ pc ∈ h, ∀ b, alookup m pc.1 = some b → childSum m pc.2 ≤ b) :
    ∀ q, alookup (subHierarchyRun m steps) q = refSubLookup m h q := by
  have hflat' : ∀ s ∈ steps, ∀ t ∈ steps,
      goContains s.parent t.children = false := fun s hs t ht =>
    flatB_spec hflat (stepPair s)
      (hperm.mem_iff.1 (List.mem_map_of_mem stepPair hs)) (stepPair t)
      (hperm.mem_iff.1 (List.mem_map_of_mem stepPair ht))
  have hpnd : (steps.map RunStep.parent).Nodup := by
    have h2 : (akeys (pairsOf steps)).Nodup := ((hperm.map Prod.fst).nodup_iff).2 hnd
    rwa [akeys_pairsOf] at h2
  have hbound' : ∀ s ∈ steps, ∀ b, alookup m s.parent = some b →
      childSum m s.children ≤ b := fun s hs b hb =>
    hbound (stepPair s) (hperm.mem_iff.1 (List.mem_map_of_mem stepPair hs)) b hb
  intro q
  rw [subRun_spec steps m hnn hvalid hflat' hpnd hbound' q]
  unfold refSubLookup
  rw [alookup_perm hperm hnd q]

/-! ### Claim theorems for the aggregation algebra -/

/-- C4: `Metrics.Add` semantics.  If `name` is present and the sum would be
negative, an error is returned, the current value is returned, and the map
is untouched; if the sum is non-negative the entry becomes the sum; if
`name` is absent an entry with value `delta` is created without error, even
for negative `delta`. -/
theorem metricsAdd_spec (m : Metrics) (n : String) (d : Int) :
    (∀ v, alookup m n = some v → v + d < 0 →
      (metricsAdd m n d).isErr = true ∧ (metricsAdd m n d).value = v ∧
        (metricsAdd m n d).metrics = m) ∧
    (∀ v, alookup m n = some v → 0 ≤ v + d →
      (metricsAdd m n d).isErr = false ∧
        alookup (metricsAdd m n d).metrics n = some (v + d)) ∧
    (alookup m n = none →
      (metricsAdd m n d).isErr = false ∧
        alookup (metricsAdd m n d).metrics n = some d) := by
  refine ⟨?_, ?_, ?_⟩
  · intro v hv hneg
    simp [metricsAdd, hv, hneg]
  · intro v hv hnn
    have hlt : ¬v + d < 0 := by omega
    simp [metricsAdd, hv, hlt, alookup_ainsert]
  · intro hv
    simp [metricsAdd, hv, alookup_ainsert]

/-- C4 witness: `Add(m, "hits", -100)` on `m = {"hits": 2}` fails, returns
2 and leaves the map unchanged. -/
theorem metricsAdd_spec_witness :
    (metricsAdd [("hits", 2)] "hits" (-100)).isErr = true ∧
    (metricsAdd [("hits", 2)] "hits" (-100)).value = 2 ∧
    (metricsAdd [("hits", 2)] "hits" (-100)).metrics = [("hits", 2)] :=
  (metricsAdd_spec [("hits", 2)] "hits" (-100)).1 2 (by decide) (by decide)

/-- C5: in every run of `SubtractHierarchyFromMetrics`, a parent absent
from the input never appears in the result, and a parent for which the
delete branch fires (a decrement that would go negative) is absent from the
final result — deleted outright, not clamped to zero. -/
theorem subHierarchy_delete_semantics (m : Metrics) (steps : List RunStep)
    (q : String) :
    (alookup m q = none → alookup (subHierarchyRun m steps) q = none) ∧
    (subRunDeleted q m steps = true →
      alookup (subHierarchyRun m steps) q = none) :=
  ⟨fun h => subRun_absent steps m h, fun h => subRunDeleted_spec q steps m h⟩

/-- C5 witness: subtracting `{p ↦ [c]}` from `{p ↦ 1, c ↦ 5}` deletes `p`
(1 − 5 < 0), and an absent key `z` stays absent. -/
theorem subHierarchy_delete_semantics_witness :
    alookup (subHierarchyRun [("p", 1), ("c", 5)]
      [⟨"p", ["c"], ["p", "c"]⟩]) "p" = none ∧
    alookup (subHierarchyRun [("p", 1), ("c", 5)]
      [⟨"p", ["c"], ["p", "c"]⟩]) "z" = none :=
  ⟨(subHierarchy_delete_semantics [("p", 1), ("c", 5)]
      [⟨"p", ["c"], ["p", "c"]⟩] "p").2 (by decide),
   (subHierarchy_delete_semantics [("p", 1), ("c", 5)]
      [⟨"p", ["c"], ["p", "c"]⟩] "z").1 (by decide)⟩

/-- C2 (amended): over non-negative metrics and a hierarchy in which no
parent occurs as a child, every Go-realisable run of
`AddHierarchyToMetrics` computes the snapshot-based reference result — and
is therefore independent of the processing order. -/
theorem addHierarchy_matches_snapshot (m : Metrics) (h : Hierarchy)
    (steps : List RunStep)
    (hperm : (pairsOf steps).Perm h) (hnd : nodupKeys h)
    (hvalid : validAddRun m steps = true) (hflat : flatB h = true)
    (hnn : nonnegB m = true) :
    ∀ q, alookup (addHierarchyRun m steps) q = refAddLookup m h q :=
  addRun_ref m h steps hperm hnd hvalid hflat (nonnegB_spec hnn)

/-- C2 witness: `{c ↦ 1, p ↦ 1}` with hierarchy `{p ↦ [c]}`. -/
theorem addHierarchy_matches_snapshot_witness :
    alookup (addHierarchyRun [("c", 1), ("p", 1)] [⟨"p", ["c"], ["c", "p"]⟩]) "p" =
      refAddLookup [("c", 1), ("p", 1)] [("p", ["c"])] "p" :=
  addHierarchy_matches_snapshot [("c", 1), ("p", 1)] [("p", ["c"])]
    [⟨"p", ["c"], ["c", "p"]⟩] (by decide) (by decide) (by decide) (by decide)
    (by decide) "p"

/-- C2 counterexample: with the two-level hierarchy `{p ↦ [c], q ↦ [p]}`
on metrics `{c ↦ 1, p ↦ 1, q ↦ 0}`, two Go-realisable runs (processing `p`
first versus `q` first) give `q ↦ 2` and `q ↦ 1` respectively, and the
first disagrees with the snapshot reference (`q ↦ 1`): the code reads
children from the mutating clone, not from a snapshot. -/
theorem addHierarchy_snapshot_counterexample :
    validAddRun [("c", 1), ("p", 1), ("q", 0)]
      [⟨"p", ["c"], ["c", "p", "q"]⟩, ⟨"q", ["p"], ["c", "p", "q"]⟩] = true ∧
    validAddRun [("c", 1), ("p", 1), ("q", 0)]
      [⟨"q", ["p"], ["c", "p", "q"]⟩, ⟨"p", ["c"], ["c", "p", "q"]⟩] = true ∧
    pairsOf [⟨"p", ["c"], ["c", "p", "q"]⟩, ⟨"q", ["p"], ["c", "p", "q"]⟩] =
      [("p", ["c"]), ("q", ["p"])] ∧
    (pairsOf [⟨"q", ["p"], ["c", "p", "q"]⟩, ⟨"p", ["c"], ["c", "p", "q"]⟩]).Perm
      [("p", ["c"]), ("q", ["p"])] ∧
    nodupKeys ([("p", ["c"]), ("q", ["p"])] : Hierarchy) ∧
    nonnegB [("c", 1), ("p", 1), ("q", 0)] = true ∧
    alookup (addHierarchyRun [("c", 1), ("p", 1), ("q", 0)]
      [⟨"p", ["c"], ["c", "p", "q"]⟩, ⟨"q", ["p"], ["c", "p", "q"]⟩]) "q" = some 2 ∧
    alookup (addHierarchyRun [("c", 1), ("p", 1), ("q", 0)]
      [⟨"q", ["p"], ["c", "p", "q"]⟩, ⟨"p", ["c"], ["c", "p", "q"]⟩]) "q" = some 1 ∧
    refAddLookup [("c", 1), ("p", 1), ("q", 0)] [("p", ["c"]), ("q", ["p"])] "q" =
      some 1 := by
  decide

/-- C9 (amended): a parent absent from the metrics all of whose present
children are negative is left absent by every run of
`AddHierarchyToMetrics`, provided no parent of the hierarchy occurs among
that parent's children (creation goes through `Set`, whose negative-value
error is discarded); by contrast, a direct `Add` on an absent metric does
create it, even with a negative seed. -/
theorem addHierarchy_absent_parent_spec (m : Metrics) (h : Hierarchy)
    (steps : List RunStep) (p : String) (cs : List String)
    (hperm : (pairsOf steps).Perm h) (hnd : nodupKeys h)
    (hmem : (p, cs) ∈ h)
    (habs : alookup m p = none)
    (hneg : ∀ x v, goContains x cs = true → alookup m x = some v → v < 0)
    (hnochild : ∀ qc ∈ h, goContains qc.1 cs = false) :
    alookup (addHierarchyRun m steps) p = none ∧
    (∀ (name : String) (d : Int), alookup m name = none →
      (metricsAdd m name d).isErr = false ∧
        alookup (metricsAdd m name d).metrics name = some d) := by
  constructor
  · apply addRun_absent_parent p cs steps m habs hneg
    · intro s hs
      exact hnochild (stepPair s)
        (hperm.mem_iff.1 (List.mem_map_of_mem stepPair hs))
    · intro s hs hsp
      have h1 : (s.parent, s.children) ∈ h :=
        hperm.mem_iff.1 (List.mem_map_of_mem stepPair hs)
      rw [hsp] at h1
      have h2 := alookup_eq_some_of_mem hnd h1
      have h3 := alookup_eq_some_of_mem hnd hmem
      have h4 := h3.symm.trans h2
      injection h4 with h4
      exact h4.symm
  · intro name d hnone
    simp [metricsAdd, hnone, alookup_ainsert]

/-- C9 witness: `m = {c ↦ -3}`, `h = {p ↦ [c]}`: `p` stays absent, while a
direct `Add` of −7 on absent `x` creates `x ↦ -7`. -/
theorem addHierarchy_absent_parent_witness :
    alookup (addHierarchyRun [("c", -3)] [⟨"p", ["c"], ["c"]⟩]) "p" = none ∧
    alookup (metricsAdd [("c", -3)] "x" (-7)).metrics "x" = some (-7) := by
  have H := addHierarchy_absent_parent_spec [("c", -3)] [("p", ["c"])]
    [⟨"p", ["c"], ["c"]⟩] "p" ["c"] (by decide) (by decide) (by decide)
    (by decide)
    (by
      intro x v hx hv
      have hx2 : x = "c" := by
        have := (goContains_iff_mem x ["c"]).1 hx
        simpa using this
      subst hx2
      have hv2 : v = -3 := by
        simp [alookup] at hv
        omega
      omega)
    (by
      intro qc hqc
      have hqc2 : qc = ("p", ["c"]) := by simpa using hqc
      subst hqc2
      decide)
  exact ⟨H.1, (H.2 "x" (-7) (by decide)).2⟩

/-- C9 counterexample: with `m = {c ↦ 5}` and the two-level hierarchy
`{q ↦ [c], p ↦ [q]}`, parent `p` is absent from `m` and has no child
present in `m` (so the claim's hypotheses hold vacuously), yet a
Go-realisable run that processes `q` first creates `q ↦ 5` and then
`p ↦ 5`. -/
theorem addHierarchy_absent_parent_counterexample :
    validAddRun [("c", 5)] [⟨"q", ["c"], ["c"]⟩, ⟨"p", ["q"], ["c", "q"]⟩] = true ∧
    pairsOf [⟨"q", ["c"], ["c"]⟩, ⟨"p", ["q"], ["c", "q"]⟩] =
      [("q", ["c"]), ("p", ["q"])] ∧
    nodupKeys ([("q", ["c"]), ("p", ["q"])] : Hierarchy) ∧
    alookup ([("c", 5)] : Metrics) "p" = none ∧
    alookup ([("c", 5)] : Metrics) "q" = none ∧
    alookup (addHierarchyRun [("c", 5)]
      [⟨"q", ["c"], ["c"]⟩, ⟨"p", ["q"], ["c", "q"]⟩]) "p" = some 5 := by
  decide

/-- C1 (amended): over non-negative metrics and a hierarchy in which no
parent occurs as a child, a Go-realisable run of `AddHierarchyToMetrics`
followed by one of `SubtractHierarchyFromMetrics` with the same hierarchy
restores every entry present in the input — in particular every parent. -/
theorem roundTrip_restores_entries (m : Metrics) (h : Hierarchy)
    (addSteps subSteps : List RunStep)
    (hpermA : (pairsOf addSteps).Perm h) (hpermS : (pairsOf subSteps).Perm h)
    (hnd : nodupKeys h)
    (hvalidA : validAddRun m addSteps = true)
    (hvalidS : validSubRun (addHierarchyRun m addSteps) subSteps = true)
    (hflat : flatB h = true) (hnn : nonnegB m = true) :
    ∀ k v, alookup m k = some v →
      alookup (subHierarchyRun (addHierarchyRun m addSteps) subSteps) k = some v := by
  have hnn' := nonnegB_spec hnn
  have hA := addRun_ref m h addSteps hpermA hnd hvalidA hflat hnn'
  have hflat' := flatB_spec hflat
  have hchild_notparent : ∀ pc ∈ h, ∀ x ∈ pc.2, alookup h x = none := by
    intro pc hpc x hx
    rw [alookup_eq_none_iff_not_mem_akeys]
    intro hmem
    obtain ⟨qc, hqc, hqx⟩ := List.mem_map.1 hmem
    have hfl := hflat' qc hqc pc hpc
    rw [hqx, (goContains_iff_mem x pc.2).2 hx] at hfl
    cases hfl
  have hagree : ∀ pc ∈ h, ∀ x ∈ pc.2,
      alookup (addHierarchyRun m addSteps) x = alookup m x := by
    intro pc hpc x hx
    rw [hA x, refAddLookup_of_none _ (hchild_notparent pc hpc x hx)]
  have hnnA : ∀ x v, alookup (addHierarchyRun m addSteps) x = some v → 0 ≤ v := by
    intro x v hx
    rw [hA x] at hx
    cases hhx : alookup h x with
    | none =>
      rw [refAddLookup_of_none _ hhx] at hx
      exact hnn' x v hx
    | some cs =>
      rw [refAddLookup_of_some _ hhx] at hx
      by_cases hh : hitsB m cs = true
      · rw [if_pos hh] at hx
        injection hx with hx
        have h1 : 0 ≤ (alookup m x).getD 0 := by
          cases hmx : alookup m x with
          | none => simp
          | some w => simpa using hnn' x w hmx
        have h2 : 0 ≤ childSum m cs := keySum_nonneg fun y _ w hw => hnn' y w hw
        omega
      · rw [if_neg hh] at hx
        exact hnn' x v hx
  have hboundA : ∀ pc ∈ h, ∀ b,
      alookup (addHierarchyRun m addSteps) pc.1 = some b →
      childSum (addHierarchyRun m addSteps) pc.2 ≤ b := by
    intro pc hpc b hb
    have hcseq : childSum (addHierarchyRun m addSteps) pc.2 = childSum m pc.2 :=
      childSum_congr fun x hx => hagree pc hpc x hx
    have hsome : alookup h pc.1 = some pc.2 :=
      alookup_eq_some_of_mem hnd (by cases pc; exact hpc)
    rw [hA pc.1, refAddLookup_of_some _ hsome] at hb
    rw [hcseq]
    by_cases hh : hitsB m pc.2 = true
    · rw [if_pos hh] at hb
      injection hb with hb
      have h1 : 0 ≤ (alookup m pc.1).getD 0 := by
        cases hmx : alookup m pc.1 with
        | none => simp
        | some w => simpa using hnn' pc.1 w hmx
      omega
    · rw [if_neg hh] at hb
      have hfalse : hitsB m pc.2 = false := by
        revert hh
        cases hitsB m pc.2 <;> simp
      rw [childSum_eq_zero_of_not_hits hfalse]
      exact hnn' pc.1 b hb
  have hS := subRun_ref (addHierarchyRun m addSteps) h subSteps hpermS hnd
    hvalidS hflat hnnA hboundA
  intro k v hkv
  rw [hS k]
  cases hhk : alookup h k with
  | none =>
    rw [refSubLookup_of_none _ hhk, hA k, refAddLookup_of_none _ hhk]
    exact hkv
  | some cs =>
    have hkc : (k, cs) ∈ h := mem_of_alookup_eq_some hhk
    have hcseq : childSum (addHierarchyRun m addSteps) cs = childSum m cs :=
      childSum_congr fun x hx => hagree (k, cs) hkc x hx
    rw [refSubLookup_of_some _ hhk, hA k, refAddLookup_of_some _ hhk]
    by_cases hh : hitsB m cs = true
    · rw [if_pos hh, hkv, hcseq]
      simp only [Option.map_some', Option.some.injEq, Option.getD_some]
      omega
    · rw [if_neg hh]
      have hfalse : hitsB m cs = false := by
        revert hh
        cases hitsB m cs <;> simp
      rw [hkv, hcseq, childSum_eq_zero_of_not_hits hfalse]
      simp

/-- C1 witness: `m = {hits ↦ 2, child ↦ 3, parent ↦ 4}` with hierarchy
`{parent ↦ [child]}` round-trips back to `parent ↦ 4`. -/
theorem roundTrip_restores_entries_witness :
    alookup (subHierarchyRun (addHierarchyRun
      [("hits", 2), ("child", 3), ("parent", 4)]
      [⟨"parent", ["child"], ["hits", "child", "parent"]⟩])
      [⟨"parent", ["child"], ["hits", "child", "parent"]⟩]) "parent" = some 4 :=
  roundTrip_restores_entries [("hits", 2), ("child", 3), ("parent", 4)]
    [("parent", ["child"])]
    [⟨"parent", ["child"], ["hits", "child", "parent"]⟩]
    [⟨"parent", ["child"], ["hits", "child", "parent"]⟩]
    (by decide) (by decide) (by decide) (by decide) (by decide) (by decide)
    (by decide) "parent" 4 (by decide)

/-- C1 counterexample.  Part one: on `{c1 ↦ -5, c2 ↦ 5, p ↦ 0}` with flat
hierarchy `{p ↦ [c1, c2]}`, the add run discards no error and leaves
`p ↦ 0`, yet the subtract run (visiting `c2` first) deletes `p` — the
round trip does not restore the parent although the add drove no parent
negative.  Part two: on all-non-negative `{c ↦ 1, p ↦ 1, q ↦ 1}` with the
two-level hierarchy `{p ↦ [c], q ↦ [p]}`, the round trip returns
`q ↦ 2` instead of the original `q ↦ 1`. -/
theorem roundTrip_counterexample :
    addRunErr [("c1", -5), ("c2", 5), ("p", 0)]
      [⟨"p", ["c1", "c2"], ["c2", "c1", "p"]⟩] = false ∧
    validAddRun [("c1", -5), ("c2", 5), ("p", 0)]
      [⟨"p", ["c1", "c2"], ["c2", "c1", "p"]⟩] = true ∧
    validSubRun (addHierarchyRun [("c1", -5), ("c2", 5), ("p", 0)]
        [⟨"p", ["c1", "c2"], ["c2", "c1", "p"]⟩])
      [⟨"p", ["c1", "c2"], ["c2", "c1", "p"]⟩] = true ∧
    alookup ([("c1", -5), ("c2", 5), ("p", 0)] : Metrics) "p" = some 0 ∧
    alookup (subHierarchyRun (addHierarchyRun [("c1", -5), ("c2", 5), ("p", 0)]
        [⟨"p", ["c1", "c2"], ["c2", "c1", "p"]⟩])
      [⟨"p", ["c1", "c2"], ["c2", "c1", "p"]⟩]) "p" = none ∧
    addRunErr [("c", 1), ("p", 1), ("q", 1)]
      [⟨"p", ["c"], ["c", "p", "q"]⟩, ⟨"q", ["p"], ["c", "p", "q"]⟩] = false ∧
    validAddRun [("c", 1), ("p", 1), ("q", 1)]
      [⟨"p", ["c"], ["c", "p", "q"]⟩, ⟨"q", ["p"], ["c", "p", "q"]⟩] = true ∧
    validSubRun (addHierarchyRun [("c", 1), ("p", 1), ("q", 1)]
        [⟨"p", ["c"], ["c", "p", "q"]⟩, ⟨"q", ["p"], ["c", "p", "q"]⟩])
      [⟨"p", ["c"], ["c", "p", "q"]⟩, ⟨"q", ["p"], ["c", "p", "q"]⟩] = true ∧
    alookup ([("c", 1), ("p", 1), ("q", 1)] : Metrics) "q" = some 1 ∧
    alookup (subHierarchyRun (addHierarchyRun [("c", 1), ("p", 1), ("q", 1)]
        [⟨"p", ["c"], ["c", "p", "q"]⟩, ⟨"q", ["p"], ["c", "p", "q"]⟩])
      [⟨"p", ["c"], ["c", "p", "q"]⟩, ⟨"q", ["p"], ["c", "p", "q"]⟩]) "q" =
      some 2 := by
  decide

/-! ### C6 — DeepCopy and backing storage

Go slices are references into a heap of backing arrays.  `SliceHeap`
models that heap; `Hierarchy.DeepCopy`'s `clonedV = append(clonedV, v...)`
on a nil `clonedV` allocates a fresh backing array, modelled by
`allocSlice`.  Sharing (or not) of backing storage is then expressible:
mutation through one reference affects another iff they are equal. -/

/-- A heap of string-slice backing arrays with an allocation counter. -/
structure SliceHeap where
  next : Nat
  store : List (Nat × List String)
  deriving DecidableEq

/-- Every allocated id is below the counter. -/
def heapWF (hp : SliceHeap) : Prop := ∀ i ∈ akeys hp.store, i < hp.next

instance heapWFDec (hp : SliceHeap) : Decidable (heapWF hp) :=
  List.decidableBAll _ (akeys hp.store)

/-- Fresh allocation of a backing array with the given contents. -/
def allocSlice (hp : SliceHeap) (contents : List String) : Nat × SliceHeap :=
  (hp.next, ⟨hp.next + 1, ainsert hp.store hp.next contents⟩)

/-- Dereference a slice. -/
def readSlice (hp : SliceHeap) (r : Nat) : List String :=
  (alookup hp.store r).getD []

/-- In-place mutation of a slice's contents through a reference. -/
def writeSlice (hp : SliceHeap) (r : Nat) (contents : List String) : SliceHeap :=
  ⟨hp.next, ainsert hp.store r contents⟩

/-- An `api.Hierarchy` value at the heap level: parent name to slice ref. -/
abbrev HierarchyRef := List (String × Nat)

/-- The loop of `Hierarchy.DeepCopy` from `threescale/api/utilities.go`:
for each entry, build `clonedV` as a freshly allocated copy of the child
slice and store it in the clone under the same key. -/
def hierarchyDeepCopyAux : HierarchyRef → SliceHeap → HierarchyRef →
    HierarchyRef × SliceHeap
  | clone, hp, [] => (clone, hp)
  | clone, hp, kv :: rest =>
    let r := allocSlice hp (readSlice hp kv.2)
    hierarchyDeepCopyAux (ainsert clone kv.1 r.1) r.2 rest

/-- `Hierarchy.DeepCopy`: clone every entry into a fresh map with freshly
allocated child slices. -/
def hierarchyDeepCopy (hp : SliceHeap) (orig : HierarchyRef) :
    HierarchyRef × SliceHeap :=
  hierarchyDeepCopyAux [] hp orig

theorem readSlice_alloc_frame {hp : SliceHeap} {contents : List String}
    {r : Nat} (h : r ≠ hp.next) :
    readSlice (allocSlice hp contents).2 r = readSlice hp r := by
  unfold readSlice allocSlice
  rw [alookup_ainsert, if_neg (fun he => h he.symm)]

theorem hierarchyDeepCopyAux_spec :
    ∀ (orig : HierarchyRef) (clone : HierarchyRef) (hp : SliceHeap),
    heapWF hp →
    (∀ kv ∈ orig, kv.2 < hp.next) →
    nodupKeys orig →
    hp.next ≤ (hierarchyDeepCopyAux clone hp orig).2.next ∧
    heapWF (hierarchyDeepCopyAux clone hp orig).2 ∧
    (∀ r, r < hp.next →
      readSlice (hierarchyDeepCopyAux clone hp orig).2 r = readSlice hp r) ∧
    (∀ k, k ∉ akeys orig →
      alookup (hierarchyDeepCopyAux clone hp orig).1 k = alookup clone k) ∧
    (∀ k rf, alookup orig k = some rf →
      ∃ rN, alookup (hierarchyDeepCopyAux clone hp orig).1 k = some rN ∧
        hp.next ≤ rN ∧
        readSlice (hierarchyDeepCopyAux clone hp orig).2 rN = readSlice hp rf) := by
  intro orig
  induction orig with
  | nil =>
    intro clone hp hwf _ _
    refine ⟨le_rfl, hwf, fun _ _ => rfl, fun _ _ => rfl, fun k rf hk => ?_⟩
    cases hk
  | cons kv rest ih =>
    intro clone hp hwf hrefs hnd
    obtain ⟨a, rf⟩ := kv
    have hrf : rf < hp.next := hrefs (a, rf) (List.mem_cons_self _ _)
    have hwf1 : heapWF (allocSlice hp (readSlice hp rf)).2 := by
      intro i hi
      rcases (mem_akeys_ainsert hp.store hp.next (readSlice hp rf) i).1 hi with
        hold | hnew
      · exact Nat.lt_succ_of_lt (hwf i hold)
      · rw [hnew]; exact Nat.lt_succ_self _
    have hrefs1 : ∀ kv' ∈ rest, kv'.2 < (allocSlice hp (readSlice hp rf)).2.next :=
      fun kv' hkv' =>
        Nat.lt_succ_of_lt (hrefs kv' (List.mem_cons_of_mem _ hkv'))
    have hnd1 : nodupKeys rest := by
      simp only [nodupKeys, akeys, List.map_cons, List.nodup_cons] at hnd
      exact hnd.2
    have hanotin : a ∉ akeys rest := by
      simp only [nodupKeys, akeys, List.map_cons, List.nodup_cons] at hnd
      exact hnd.1
    obtain ⟨A1, A2, A3, A4, A5⟩ := ih (ainsert clone a hp.next)
      (allocSlice hp (readSlice hp rf)).2 hwf1 hrefs1 hnd1
    have hfold : hierarchyDeepCopyAux clone hp ((a, rf) :: rest) =
        hierarchyDeepCopyAux (ainsert clone a hp.next)
          (allocSlice hp (readSlice hp rf)).2 rest := rfl
    rw [hfold]
    have hframe : ∀ r, r < hp.next →
        readSlice (hierarchyDeepCopyAux (ainsert clone a hp.next)
          (allocSlice hp (readSlice hp rf)).2 rest).2 r = readSlice hp r := by
      intro r hr
      rw [A3 r (Nat.lt_succ_of_lt hr)]
      exact readSlice_alloc_frame (Nat.ne_of_lt hr)
    refine ⟨le_trans (Nat.le_succ _) A1, A2, hframe, ?_, ?_⟩
    · intro k hk
      have hka : k ≠ a := by
        intro he
        exact hk (by rw [he]; exact List.mem_cons_self a _)
      have hkrest : k ∉ akeys rest := by
        intro hmem
        exact hk (List.mem_cons_of_mem _ hmem)
      rw [A4 k hkrest, alookup_ainsert, if_neg (fun he => hka he.symm)]
    · intro k rf' hk
      by_cases hka : a = k
      · subst hka
        have hrf' : rf' = rf := by
          rw [show alookup ((a, rf) :: rest) a = some rf from by
            simp [alookup]] at hk
          injection hk with hk
          exact hk.symm
        subst hrf'
        refine ⟨hp.next, ?_, le_rfl, ?_⟩
        · rw [A4 a hanotin, alookup_ainsert, if_pos rfl]
        · rw [A3 hp.next (Nat.lt_succ_self _)]
          unfold readSlice allocSlice
          rw [alookup_ainsert, if_pos rfl]
          rfl
      · have hkrest : alookup rest k = some rf' := by
          rw [show alookup ((a, rf) :: rest) k =
            if a = k then some rf else alookup rest k from rfl, if_neg hka] at hk
          exact hk
        obtain ⟨rN, hN1, hN2, hN3⟩ := A5 k rf' hkrest
        refine ⟨rN, hN1, le_trans (Nat.le_succ _) hN2, ?_⟩
        rw [hN3]
        have hrf'lt : rf' < hp.next :=
          hrefs (k, rf') (List.mem_cons_of_mem _ (mem_of_alookup_eq_some hkrest))
        exact readSlice_alloc_frame (Nat.ne_of_lt hrf'lt)

theorem foldl_ainsert_lookup :
    ∀ (l : Metrics) (acc : Metrics), nodupKeys l →
      ∀ k, alookup (l.foldl (fun c kv => ainsert c kv.1 kv.2) acc) k =
        if k ∈ akeys l then alookup l k else alookup acc k := by
  intro l
  induction l with
  | nil => intro acc _ k; simp [akeys]
  | cons kv rest ih =>
    intro acc hnd k
    obtain ⟨a, v⟩ := kv
    have hnd1 : nodupKeys rest := by
      simp only [nodupKeys, akeys, List.map_cons, List.nodup_cons] at hnd
      exact hnd.2
    have hanotin : a ∉ akeys rest := by
      simp only [nodupKeys, akeys, List.map_cons, List.nodup_cons] at hnd
      exact hnd.1
    rw [List.foldl_cons, ih (ainsert acc a v) hnd1 k]
    by_cases hkr : k ∈ akeys rest
    · have hka : a ≠ k := fun he => hanotin (he ▸ hkr)
      rw [if_pos hkr, if_pos (show k ∈ akeys ((a, v) :: rest) from
        List.mem_cons_of_mem _ hkr)]
      rw [show alookup ((a, v) :: rest) k =
        if a = k then some v else alookup rest k from rfl, if_neg hka]
    · rw [if_neg hkr, alookup_ainsert]
      by_cases hka : a = k
      · rw [if_pos hka, if_pos (show k ∈ akeys ((a, v) :: rest) from by
          rw [← hka]; exact List.mem_cons_self a _)]
        rw [show alookup ((a, v) :: rest) k =
          if a = k then some v else alookup rest k from rfl, if_pos hka]
      · rw [if_neg hka, if_neg (show k ∉ akeys ((a, v) :: rest) from by
          intro hmem
          rcases List.mem_cons.1 hmem with he | hm
          · exact hka he.symm
          · exact hkr hm)]

/-- C6: on the slice-heap model, `Hierarchy.DeepCopy` binds every key of
the original to a freshly allocated slice with equal contents (and nothing
else), the original's slices read back unchanged, and mutating any fresh
slice of the clone leaves every pre-existing slice unchanged — no backing
storage is shared.  `Metrics.DeepCopy` (whose values are plain ints) is
structurally equal to the original. -/
theorem deepCopy_no_shared_storage (hp : SliceHeap) (orig : HierarchyRef)
    (m : Metrics)
    (hwf : heapWF hp) (hrefs : ∀ kv ∈ orig, kv.2 < hp.next)
    (hndH : nodupKeys orig) (hndM : nodupKeys m) :
    (∀ k rf, alookup orig k = some rf →
      ∃ rN, alookup (hierarchyDeepCopy hp orig).1 k = some rN ∧ hp.next ≤ rN ∧
        readSlice (hierarchyDeepCopy hp orig).2 rN = readSlice hp rf) ∧
    (∀ k, alookup orig k = none → alookup (hierarchyDeepCopy hp orig).1 k = none) ∧
    (∀ r, r < hp.next →
      readSlice (hierarchyDeepCopy hp orig).2 r = readSlice hp r) ∧
    (∀ rN c r, hp.next ≤ rN → r < hp.next →
      readSlice (writeSlice (hierarchyDeepCopy hp orig).2 rN c) r =
        readSlice hp r) ∧
    (∀ k, alookup (metricsDeepCopy m) k = alookup m k) := by
  obtain ⟨A1, A2, A3, A4, A5⟩ := hierarchyDeepCopyAux_spec orig [] hp hwf hrefs hndH
  refine ⟨A5, ?_, A3, ?_, ?_⟩
  · intro k hk
    exact A4 k ((alookup_eq_none_iff_not_mem_akeys orig k).1 hk)
  · intro rN c r hle hr
    have hne : r ≠ rN := Nat.ne_of_lt (lt_of_lt_of_le hr hle)
    unfold writeSlice readSlice
    rw [alookup_ainsert, if_neg (fun he => hne he.symm)]
    exact A3 r hr
  · intro k
    rw [show metricsDeepCopy m =
      m.foldl (fun c kv => ainsert c kv.1 kv.2) [] from rfl,
      foldl_ainsert_lookup m [] hndM k]
    by_cases hk : k ∈ akeys m
    · rw [if_pos hk]
    · rw [if_neg hk, (alookup_eq_none_iff_not_mem_akeys m k).2 hk]
      rfl

/-- C6 witness: cloning `{p ↦ slice 0 = ["a","b"]}` on a heap with
counter 1 reads back unchanged, and overwriting the fresh slice 1 leaves
slice 0 untouched; `Metrics.DeepCopy {x ↦ 3}` looks up like the original. -/
theorem deepCopy_no_shared_storage_witness :
    readSlice (hierarchyDeepCopy ⟨1, [(0, ["a", "b"])]⟩ [("p", 0)]).2 0 =
      readSlice ⟨1, [(0, ["a", "b"])]⟩ 0 ∧
    readSlice (writeSlice (hierarchyDeepCopy ⟨1, [(0, ["a", "b"])]⟩
      [("p", 0)]).2 1 ["z"]) 0 = readSlice ⟨1, [(0, ["a", "b"])]⟩ 0 ∧
    alookup (metricsDeepCopy [("x", 3)]) "x" = alookup [("x", 3)] "x" := by
  have H := deepCopy_no_shared_storage ⟨1, [(0, ["a", "b"])]⟩ [("p", 0)]
    [("x", 3)] (by decide) (by decide) (by decide) (by decide)
  exact ⟨H.2.2.1 0 (by decide), H.2.2.2.1 1 ["z"] 0 (by decide) (by decide),
    H.2.2.2.2 "x"⟩

/-! ### `threescale/http/client.go` — CodeToStatusCode -/

/-- The map literal inside `CodeToStatusCode`. -/
def codeToStatusTable : List (String × Nat) :=
  [("access_token_storage_error", 400),
   ("not_valid_data", 400),
   ("bad_request", 400),
   ("access_token_already_exists", 400),
   ("content_type_invalid", 400),
   ("provider_key_invalid", 403),
   ("user_requires_registration", 403),
   ("user_key_invalid", 403),
   ("authentication_error", 403),
   ("provider_key_or_service_token_required", 403),
   ("service_token_invalid", 403),
   ("application_not_found", 404),
   ("application_token_invalid", 404),
   ("service_id_invalid", 404),
   ("metric_invalid", 404),
   ("limits_exceeded", 409),
   ("oauth_not_enabled", 409),
   ("redirect_uri_invalid", 409),
   ("redirect_url_invalid", 409),
   ("application_not_active", 409),
   ("application_key_invalid", 409),
   ("referrer_not_allowed", 409),
   ("application_has_inconsistent_data", 422),
   ("referrer_filter_invalid", 422),
   ("required_params_missing", 422),
   ("usage_value_invalid", 422),
   ("service_id_missing", 422)]

/-- `CodeToStatusCode`: a Go map index, whose missing-key default is the
zero value 0. -/
def CodeToStatusCode (errorCode : String) : Nat :=
  (alookup codeToStatusTable errorCode).getD 0

/-- C10: `CodeToStatusCode` is total; it returns the table's status (one
of 400/403/404/409/422) on every listed code and 0 — not an error, not a
4xx/5xx — on every other string, the empty string included. -/
theorem codeToStatusCode_spec (s : String) :
    (∀ v, alookup codeToStatusTable s = some v →
      CodeToStatusCode s = v ∧
        CodeToStatusCode s ∈ ([400, 403, 404, 409, 422] : List Nat)) ∧
    (alookup codeToStatusTable s = none → CodeToStatusCode s = 0) ∧
    CodeToStatusCode "" = 0 := by
  refine ⟨?_, ?_, by decide⟩
  · intro v hv
    constructor
    · unfold CodeToStatusCode
      rw [hv]
      rfl
    · unfold CodeToStatusCode
      rw [hv]
      have hvmem : v ∈ codeToStatusTable.map Prod.snd :=
        List.mem_map_of_mem Prod.snd (mem_of_alookup_eq_some hv)
      have hall : ∀ w ∈ codeToStatusTable.map Prod.snd,
          w ∈ ([400, 403, 404, 409, 422] : List Nat) := by decide
      simpa using hall v hvmem
  · intro hv
    unfold CodeToStatusCode
    rw [hv]
    rfl

/-- C10 witness: a listed code maps to its table status and an unknown
code maps to 0. -/
theorem codeToStatusCode_spec_witness :
    CodeToStatusCode "limits_exceeded" = 409 ∧ CodeToStatusCode "nope" = 0 :=
  ⟨((codeToStatusCode_spec "limits_exceeded").1 409 (by decide)).1,
   (codeToStatusCode_spec "nope").2.1 (by decide)⟩

/-! ### `threescale/http/client.go` — the report call -/

/-- `threescale.ReportResult` (RawResponse carries no decoded data). -/
structure ReportResult where
  accepted : Bool
  errorCode : String
  deriving DecidableEq

/-- A report-response body as seen by `encoding/xml`: either decoding
fails, or the document's root element with its attributes. -/
inductive ReportBody where
  | malformed : ReportBody
  | wellFormed (rootName : String) (attrs : List (String × String)) : ReportBody
  deriving DecidableEq

/-- Decoding into `internal.ReportErrorXML`: the root element must be
`<error>`; the `code` attribute defaults to the empty string. -/
def decodeReportError : ReportBody → Option String
  | .malformed => none
  | .wellFormed root attrs =>
    if root = "error" then some ((alookup attrs "code").getD "") else none

/-- The `(*ReportResult, error)` pair returned by `executeReportCall`
after a completed HTTP round trip: either the XML decode failed (nil
result, non-nil error), or a result, possibly alongside an error. -/
inductive ReportCallOutcome where
  | decodeFailure : ReportCallOutcome
  | result (r : ReportResult) (errReturned : Bool) : ReportCallOutcome
  deriving DecidableEq

/-- `Client.handleReportingError`: 5xx returns a refusal plus an error
without reading the body; otherwise the body's `<error code=".."/>`
element becomes the ErrorCode. -/
def handleReportingError (statusCode : Nat) (body : ReportBody) :
    ReportCallOutcome :=
  if 500 ≤ statusCode then .result ⟨false, ""⟩ true
  else
    match decodeReportError body with
    | none => .decodeFailure
    | some code => .result ⟨false, code⟩ false

/-- `Client.executeReportCall` after the HTTP round trip completed:
accepted exactly on a 2xx status, delegating errors otherwise. -/
def executeReportCall (statusCode : Nat) (body : ReportBody) :
    ReportCallOutcome :=
  if ¬(200 ≤ statusCode ∧ statusCode ≤ 299) then
    handleReportingError statusCode body
  else .result ⟨true, ""⟩ false

/-- C8 (amended): whenever a report call yields a result, Accepted holds
exactly on a 2xx status; for a non-2xx status below 500 with a well-formed
single `<error/>` body the code attribute becomes the ErrorCode; for a 5xx
status the body is not consulted — the ErrorCode stays empty and a non-nil
error is returned alongside the result. -/
theorem report_result_semantics (statusCode : Nat) (body : ReportBody) :
    (∀ r e, executeReportCall statusCode body = .result r e →
      (r.accepted = true ↔ 200 ≤ statusCode ∧ statusCode ≤ 299)) ∧
    (∀ attrs, ¬(200 ≤ statusCode ∧ statusCode ≤ 299) → statusCode < 500 →
      body = .wellFormed "error" attrs →
      executeReportCall statusCode body =
        .result ⟨false, (alookup attrs "code").getD ""⟩ false) ∧
    (500 ≤ statusCode →
      executeReportCall statusCode body = .result ⟨false, ""⟩ true) := by
  refine ⟨?_, ?_, ?_⟩
  · intro r e hr
    unfold executeReportCall at hr
    by_cases h2 : 200 ≤ statusCode ∧ statusCode ≤ 299
    · rw [if_neg (not_not_intro h2)] at hr
      injection hr with hr _
      rw [← hr]
      exact ⟨fun _ => h2, fun _ => rfl⟩
    · rw [if_pos h2] at hr
      unfold handleReportingError at hr
      by_cases h5 : 500 ≤ statusCode
      · rw [if_pos h5] at hr
        injection hr with hr _
        rw [← hr]
        exact ⟨fun hc => Bool.noConfusion hc, fun hp => absurd hp h2⟩
      · rw [if_neg h5] at hr
        cases hd : decodeReportError body with
        | none => rw [hd] at hr; cases hr
        | some code =>
          rw [hd] at hr
          injection hr with hr _
          rw [← hr]
          exact ⟨fun hc => Bool.noConfusion hc, fun hp => absurd hp h2⟩
  · intro attrs h2 h5 hbody
    subst hbody
    simp [executeReportCall, handleReportingError, decodeReportError, h2,
      show ¬500 ≤ statusCode by omega]
  · intro h5
    unfold executeReportCall handleReportingError
    rw [if_pos (show ¬(200 ≤ statusCode ∧ statusCode ≤ 299) by omega),
      if_pos h5]

/-- C8 witness: a 409 response with body `<error code="limits_exceeded"/>`
yields a non-accepted result carrying that code and no error. -/
theorem report_result_semantics_witness :
    executeReportCall 409 (.wellFormed "error" [("code", "limits_exceeded")]) =
      .result ⟨false, "limits_exceeded"⟩ false :=
  (report_result_semantics 409
    (.wellFormed "error" [("code", "limits_exceeded")])).2.1
    [("code", "limits_exceeded")] (by decide) (by decide) rfl

/-- C8 counterexample: a completed round trip with status 503 and a
well-formed `<error code="teapot"/>` body yields ErrorCode `""`, not
`"teapot"` — the body is never parsed for 5xx responses. -/
theorem report_errorcode_counterexample :
    executeReportCall 503 (.wellFormed "error" [("code", "teapot")]) =
      .result ⟨false, ""⟩ true ∧
    decodeReportError (.wellFormed "error" [("code", "teapot")]) =
      some "teapot" ∧
    ("" : String) ≠ "teapot" := by
  decide

/-! ### `threescale/http/client.go` — auth response decoding and the
rate-limit extension -/

/-- `http.Header.Get`: the empty string stands for an absent header. -/
def headerGet (headers : List (String × String)) (k : String) : String :=
  (alookup headers k).getD ""

def isDigit (c : Char) : Bool := decide ('0' ≤ c) && decide (c ≤ '9')

def digitVal (c : Char) : Nat := c.toNat - '0'.toNat

/-- `strconv.Atoi`: an optional sign followed by at least one digit. -/
def atoi (s : String) : Option Int :=
  match s.toList with
  | [] => none
  | c :: cs =>
    let signDigits : Bool × List Char :=
      if c = '-' then (true, cs)
      else if c = '+' then (false, cs) else (false, c :: cs)
    if signDigits.2.isEmpty then none
    else if signDigits.2.all isDigit then
      let n : Nat := signDigits.2.foldl (fun acc d => acc * 10 + digitVal d) 0
      some (if signDigits.1 then -(n : Int) else (n : Int))
    else none

/-- `api.RateLimits`: two plain ints — the type cannot express per-field
absence. -/
structure RateLimits where
  limitRemaining : Int
  limitReset : Int
  deriving DecidableEq

/-- `Client.handleRateLimitExtensions`: start from a zero-valued struct
and fill each field only when its header is present and parses. -/
def handleRateLimitExtensions (headers : List (String × String)) : RateLimits :=
  let rl0 : RateLimits := ⟨0, 0⟩
  let limitRem := headerGet headers "3scale-limit-remaining"
  let rl1 :=
    if limitRem ≠ "" then
      match atoi limitRem with
      | some remainingLimit => { rl0 with limitRemaining := remainingLimit }
      | none => rl0
    else rl0
  let limReset := headerGet headers "3scale-limit-reset"
  if limReset ≠ "" then
    match atoi limReset with
    | some resetLimit => { rl1 with limitReset := resetLimit }
    | none => rl1
  else rl1

/-- One `<metric name=".." children=".."/>` element of the hierarchy
extension. -/
structure HierarchyXMLMetric where
  name : String
  children : String
  deriving DecidableEq

/-- `Client.convertXmlHierarchy`: split each children attribute on single
spaces and append unseen children per parent. -/
def convertXmlHierarchy (ms : List HierarchyXMLMetric) : Hierarchy :=
  ms.foldl
    (fun acc i =>
      if i.children ≠ "" then
        (i.children.splitOn " ").foldl
          (fun acc2 child =>
            if goContains child ((alookup acc2 i.name).getD []) then acc2
            else ainsert acc2 i.name ((alookup acc2 i.name).getD [] ++ [child]))
          acc
      else acc)
    []

/-- Rate-limiting periods (`api.Period`); the Go zero value is `Minute`. -/
inductive Period where
  | minute | hour | day | week | month | year | eternity
  deriving DecidableEq

/-- `granularityMap` from `threescale/http/client.go`. -/
def granularityMap : List (String × Period) :=
  [("minute", .minute), ("hour", .hour), ("day", .day), ("week", .week),
   ("month", .month), ("year", .year), ("eternity", .eternity)]

/-- `internal.UsageReportXML`. -/
structure UsageReportXML where
  metric : String
  period : String
  periodStart : String
  periodEnd : String
  maxValue : Int
  currentValue : Int
  deriving DecidableEq

/-- `api.PeriodWindow` (Start/End unix timestamps). -/
structure PeriodWindow where
  period : Period
  start : Int
  endTime : Int
  deriving DecidableEq

/-- `api.UsageReport`. -/
structure UsageReport where
  periodWindow : PeriodWindow
  maxValue : Int
  currentValue : Int
  deriving DecidableEq

def isLeapYear (y : Int) : Bool :=
  (decide (y % 4 = 0) && !decide (y % 100 = 0)) || decide (y % 400 = 0)

def daysInMonth (y m : Int) : Int :=
  if m = 2 then (if isLeapYear y then 29 else 28)
  else if m = 4 ∨ m = 6 ∨ m = 9 ∨ m = 11 then 30
  else 31

/-- Days since 1970-01-01 of a civil date (the standard era-based
computation). -/
def daysFromCivil (y m d : Int) : Int :=
  let y2 := if m ≤ 2 then y - 1 else y
  let era := (if 0 ≤ y2 then y2 else y2 - 399) / 400
  let yoe := y2 - era * 400
  let doy := (153 * ((m + 9) % 12) + 2) / 5 + d - 1
  let doe := yoe * 365 + yoe / 4 - yoe / 100 + doy
  era * 146097 + doe - 719468

/-- `time.Parse` with the fixed layout `"2006-01-02 15:04:05 -0700"`,
converted to Unix seconds (`t.Unix()`): a wall-clock time in the parsed
fixed zone. -/
def parseTime (s : String) : Option Int :=
  match s.toList with
  | [y1, y2, y3, y4, '-', m1, m2, '-', d1, d2, ' ',
     h1, h2, ':', n1, n2, ':', s1, s2, ' ', sg, z1, z2, z3, z4] =>
    if ([y1, y2, y3, y4, m1, m2, d1, d2, h1, h2, n1, n2, s1, s2,
        z1, z2, z3, z4].all isDigit && (sg = '+' || sg = '-')) then
      let year : Int := (1000 * digitVal y1 + 100 * digitVal y2 +
        10 * digitVal y3 + digitVal y4 : Nat)
      let month : Int := (10 * digitVal m1 + digitVal m2 : Nat)
      let day : Int := (10 * digitVal d1 + digitVal d2 : Nat)
      let hour : Int := (10 * digitVal h1 + digitVal h2 : Nat)
      let minute : Int := (10 * digitVal n1 + digitVal n2 : Nat)
      let second : Int := (10 * digitVal s1 + digitVal s2 : Nat)
      if 1 ≤ month ∧ month ≤ 12 ∧ 1 ≤ day ∧ day ≤ daysInMonth year month ∧
          hour ≤ 23 ∧ minute ≤ 59 ∧ second ≤ 59 then
        let offset : Int :=
          (3600 * (10 * digitVal z1 + digitVal z2) +
            60 * (10 * digitVal z3 + digitVal z4) : Nat)
        let offset := if sg = '-' then -offset else offset
        some (daysFromCivil year month day * 86400 +
          hour * 3600 + minute * 60 + second - offset)
      else none
    else none
  | _ => none

/-- `convertXmlToUsageReport`: reports whose period boundaries fail to
parse are rejected; an unknown period string maps to the Go zero value
(`Minute`). -/
def convertXmlToUsageReport (ur : UsageReportXML) : Option UsageReport :=
  match parseTime ur.periodStart with
  | none => none
  | some start =>
    match parseTime ur.periodEnd with
    | none => none
    | some stop =>
      some ⟨⟨(alookup granularityMap ur.period).getD Period.minute, start, stop⟩,
        ur.maxValue, ur.currentValue⟩

/-- `Client.convertXmlUsageReports`: convertible reports accumulate into a
list per metric name; failures are skipped. -/
def convertXmlUsageReports (xmlReports : List UsageReportXML) :
    List (String × List UsageReport) :=
  if xmlReports.isEmpty then []
  else
    xmlReports.foldl
      (fun usageReports report =>
        match convertXmlToUsageReport report with
        | none => usageReports
        | some converted =>
          ainsert usageReports report.metric
            ((alookup usageReports report.metric).getD [] ++ [converted]))
      []

/-- `internal.AuthResponseXML`, as decoded from the response body. -/
structure AuthResponseXML where
  authorized : Bool
  reason : String
  code : String
  hierarchy : List HierarchyXMLMetric
  reports : List UsageReportXML
  deriving DecidableEq

/-- `threescale.AuthorizeExtensions`: a nil `RateLimits` pointer is
`none`. -/
structure AuthorizeExtensions where
  hierarchy : Hierarchy
  rateLimits : Option RateLimits
  deriving DecidableEq

/-- `Client.handleAuthExtensions`: each extension datum is filled only
when its key was requested; a nil extensions map yields the zero value. -/
def handleAuthExtensions (xmlResp : AuthResponseXML)
    (headers : List (String × String))
    (extensions : Option (List (String × String))) : AuthorizeExtensions :=
  match extensions with
  | none => ⟨[], none⟩
  | some exts =>
    let withHierarchy : AuthorizeExtensions :=
      if (alookup exts "hierarchy").isSome then
        ⟨convertXmlHierarchy xmlResp.hierarchy, none⟩
      else ⟨[], none⟩
    if (alookup exts "limit_headers").isSome then
      { withHierarchy with rateLimits := some (handleRateLimitExtensions headers) }
    else withHierarchy

/-- `threescale.AuthorizeResult` (RawResponse carries no decoded data). -/
structure AuthorizeResult where
  authorized : Bool
  usageReports : List (String × List UsageReport)
  errorCode : String
  rejectionReason : String
  extensions : AuthorizeExtensions
  deriving DecidableEq

/-- `Client.handleAuthXMLResp`: the decoded XML and selected headers
become the normalized result; the rejection-reason header wins over the
XML code. -/
def handleAuthXMLResp (xmlResponse : AuthResponseXML)
    (headers : List (String × String))
    (extensions : Option (List (String × String))) : AuthorizeResult :=
  { authorized := xmlResponse.authorized
    usageReports := convertXmlUsageReports xmlResponse.reports
    errorCode :=
      let headerCode := headerGet headers "3scale-Rejection-Reason"
      if headerCode ≠ "" then headerCode else xmlResponse.code
    rejectionReason := xmlResponse.reason
    extensions := handleAuthExtensions xmlResponse headers extensions }

theorem handleRateLimit_fields (headers : List (String × String)) :
    (handleRateLimitExtensions headers).limitRemaining =
      (if headerGet headers "3scale-limit-remaining" ≠ "" then
        match atoi (headerGet headers "3scale-limit-remaining") with
        | some v => v
        | none => 0
       else 0) ∧
    (handleRateLimitExtensions headers).limitReset =
      (if headerGet headers "3scale-limit-reset" ≠ "" then
        match atoi (headerGet headers "3scale-limit-reset") with
        | some v => v
        | none => 0
       else 0) := by
  dsimp only [handleRateLimitExtensions]
  constructor <;> (repeat' split) <;> rfl

/-- C3 (amended): the decoded authorize result's RateLimits field is
non-null exactly when the caller requested the `limit_headers` extension
(a non-nil extensions map containing the key), irrespective of whether the
backend answered; inside the struct, an absent or unparseable header
leaves the corresponding field at its zero value; and neither Authorized
nor UsageReports depends on the response headers. -/
theorem rateLimits_extension_behaviour (xml : AuthResponseXML)
    (headers : List (String × String))
    (exts : Option (List (String × String))) :
    ((handleAuthXMLResp xml headers exts).extensions.rateLimits.isSome = true ↔
      ∃ l, exts = some l ∧ (alookup l "limit_headers").isSome = true) ∧
    (∀ l, exts = some l → (alookup l "limit_headers").isSome = true →
      (handleAuthXMLResp xml headers exts).extensions.rateLimits =
        some (handleRateLimitExtensions headers)) ∧
    (headerGet headers "3scale-limit-remaining" = "" ∨
        atoi (headerGet headers "3scale-limit-remaining") = none →
      (handleRateLimitExtensions headers).limitRemaining = 0) ∧
    (headerGet headers "3scale-limit-reset" = "" ∨
        atoi (headerGet headers "3scale-limit-reset") = none →
      (handleRateLimitExtensions headers).limitReset = 0) ∧
    (∀ headers2 : List (String × String),
      (handleAuthXMLResp xml headers2 exts).authorized =
        (handleAuthXMLResp xml headers exts).authorized ∧
      (handleAuthXMLResp xml headers2 exts).usageReports =
        (handleAuthXMLResp xml headers exts).usageReports) := by
  refine ⟨?_, ?_, ?_, ?_, fun h2 => ⟨rfl, rfl⟩⟩
  · show (handleAuthExtensions xml headers exts).rateLimits.isSome = true ↔ _
    cases exts with
    | none => simp [handleAuthExtensions]
    | some l =>
      by_cases hl : (alookup l "limit_headers").isSome
      · simp [handleAuthExtensions, hl]
      · simp [handleAuthExtensions, hl]
        split <;> rfl
  · intro l hle hl
    subst hle
    show (handleAuthExtensions xml headers (some l)).rateLimits = _
    simp [handleAuthExtensions, hl]
  · intro hd
    rw [(handleRateLimit_fields headers).1]
    rcases hd with hrem | hrem
    · simp [hrem]
    · simp [hrem]
  · intro hd
    rw [(handleRateLimit_fields headers).2]
    rcases hd with hres | hres
    · simp [hres]
    · simp [hres]

/-- C3 witness: with the extension requested and a parseable remaining
header, the result carries the parsed struct; a malformed reset header
leaves its field at zero. -/
theorem rateLimits_extension_behaviour_witness :
    (handleAuthXMLResp ⟨true, "", "", [], []⟩
        [("3scale-limit-remaining", "7")]
        (some [("limit_headers", "1")])).extensions.rateLimits =
      some (handleRateLimitExtensions [("3scale-limit-remaining", "7")]) ∧
    (handleRateLimitExtensions [("3scale-limit-reset", "bogus")]).limitReset = 0 :=
  ⟨(rateLimits_extension_behaviour ⟨true, "", "", [], []⟩
      [("3scale-limit-remaining", "7")] (some [("limit_headers", "1")])).2.1
      [("limit_headers", "1")] rfl (by decide),
   (rateLimits_extension_behaviour ⟨true, "", "", [], []⟩
      [("3scale-limit-reset", "bogus")] none).2.2.2.1 (Or.inr (by decide))⟩

/-- C3 counterexample: the extension is requested but the backend answers
with no rate-limit headers at all, yet RateLimits is non-null — a
zero-valued struct stands in for the absent data, contradicting
"non-null only when requested and answered" and "null optional, never a
zero standing in for a value". -/
theorem rateLimits_null_counterexample :
    headerGet [] "3scale-limit-remaining" = "" ∧
    headerGet [] "3scale-limit-reset" = "" ∧
    (handleAuthXMLResp ⟨true, "", "", [], []⟩ []
      (some [("limit_headers", "1")])).extensions.rateLimits =
      some ⟨0, 0⟩ := by
  decide

/-! ### `threescale/http/builder.go` — query-parameter encoding -/

/-- `url.Values`: a map from key to the list of added values. -/
abbrev Values := List (String × List String)

/-- `url.Values.Add`: append one value to the key's list. -/
def valuesAdd (vals : Values) (k v : String) : Values :=
  ainsert vals k ((alookup vals k).getD [] ++ [v])

/-- `requestBuilder.joinValues`: copy every entry of `joinExisting` into
`toVals` and return the latter. -/
def joinValues (joinExisting toVals : Values) : Values :=
  joinExisting.foldl (fun acc kv => ainsert acc kv.1 kv.2) toVals

/-- `api.ClientAuth` (the auth type is its wire key, e.g.
`"service_token"`). -/
structure ClientAuth where
  type : String
  value : String
  deriving DecidableEq

/-- `requestBuilder.serviceToValues`. -/
def serviceToValues (s : String) : Values := [("service_id", [s])]

/-- `requestBuilder.authToValues`. -/
def authToValues (auth : ClientAuth) : Values :=
  valuesAdd [] auth.type auth.value

/-- `requestBuilder.metricsToValues`: one `usage[name]` key per metric. -/
def metricsToValues (m : Metrics) : Values :=
  m.foldl
    (fun values kv => valuesAdd values ("usage[" ++ kv.1 ++ "]") (toString kv.2))
    []

/-- `api.Params`: the five identity fields with their json wire tags. -/
structure Params where
  appID : String
  appKey : String
  referrer : String
  userID : String
  userKey : String
  deriving DecidableEq

/-- The field/tag table the reflection loop of `paramsToValues` walks, in
struct declaration order. -/
def paramsFields (p : Params) : List (String × String) :=
  [("app_id", p.appID), ("app_key", p.appKey), ("referrer", p.referrer),
   ("user_id", p.userID), ("user_key", p.userKey)]

/-- `requestBuilder.paramsToValues`: only non-empty fields are added. -/
def paramsToValues (p : Params) : Values :=
  (paramsFields p).foldl
    (fun values tagv =>
      if tagv.2 ≠ "" then valuesAdd values tagv.1 tagv.2 else values)
    []

/-- `api.Transaction`. -/
structure Transaction where
  metrics : Metrics
  params : Params
  timestamp : Int
  deriving DecidableEq

/-- `requestBuilder.setValues` for the auth/authRep kinds: service, auth,
then the first transaction's metrics and params. -/
def setValuesAuth (service : String) (auth : ClientAuth) (t0 : Transaction) :
    Values :=
  let values := joinValues [] (serviceToValues service)
  let values := joinValues values (authToValues auth)
  let values := joinValues values (metricsToValues t0.metrics)
  let values := joinValues values (paramsToValues t0.params)
  values

theorem perm_pair_cases {α : Type} {x y : α} :
    ∀ {l : List α}, l.Perm [x, y] → l = [x, y] ∨ l = [y, x] := by
  intro l h
  cases l with
  | nil => exact absurd h.length_eq (by simp)
  | cons a t =>
    cases t with
    | nil => exact absurd h.length_eq (by simp)
    | cons b t2 =>
      cases t2 with
      | cons c t3 => exact absurd h.length_eq (by simp)
      | nil =>
        have ha : a ∈ [x, y] := h.mem_iff.1 (List.mem_cons_self a [b])
        rcases List.mem_cons.1 ha with hax | hay
        · subst hax
          have hb : b = y := by simpa using (List.perm_cons a).1 h
          subst hb
          exact Or.inl rfl
        · have hay' : a = y := by simpa using hay
          subst hay'
          have hx : x ∈ [a, b] := h.mem_iff.2 (List.mem_cons_self x [a])
          rcases List.mem_cons.1 hx with hxa | hxb
          · subst hxa
            have hb : b = x := by simpa using (List.perm_cons x).1 h
            subst hb
            exact Or.inl rfl
          · have hxb' : x = b := by simpa using hxb
            subst hxb'
            exact Or.inr rfl

theorem paramsFold_lookup :
    ∀ (fields : List (String × String)) (acc : Values) (key : String),
    (fields.map Prod.fst).Nodup →
    (∀ tagv ∈ fields, alookup acc tagv.1 = none) →
    alookup (fields.foldl
      (fun values tagv =>
        if tagv.2 ≠ "" then valuesAdd values tagv.1 tagv.2 else values) acc) key =
      (match alookup fields key with
       | some v => if v ≠ "" then some [v] else alookup acc key
       | none => alookup acc key) := by
  intro fields
  induction fields with
  | nil => intro acc key _ _; rfl
  | cons tagv rest ih =>
    intro acc key hnd hacc
    obtain ⟨tag, v⟩ := tagv
    have hnd1 : (rest.map Prod.fst).Nodup := by
      simp only [List.map_cons, List.nodup_cons] at hnd
      exact hnd.2
    have htag : tag ∉ rest.map Prod.fst := by
      simp only [List.map_cons, List.nodup_cons] at hnd
      exact hnd.1
    have hacchead : alookup acc tag = none :=
      hacc (tag, v) (List.mem_cons_self _ _)
    have hframe : ∀ key', key' ≠ tag →
        alookup (if v ≠ "" then valuesAdd acc tag v else acc) key' =
          alookup acc key' := by
      intro key' hk
      by_cases hv : v ≠ ""
      · rw [if_pos hv]
        unfold valuesAdd
        rw [alookup_ainsert, if_neg (fun he => hk he.symm)]
      · rw [if_neg hv]
    have hacc1 : ∀ t' ∈ rest,
        alookup (if v ≠ "" then valuesAdd acc tag v else acc) t'.1 = none := by
      intro t' ht'
      have ht'tag : t'.1 ≠ tag := by
        intro he
        exact htag (he ▸ List.mem_map_of_mem Prod.fst ht')
      rw [hframe t'.1 ht'tag]
      exact hacc t' (List.mem_cons_of_mem _ ht')
    rw [List.foldl_cons, ih (if v ≠ "" then valuesAdd acc tag v else acc) key
      hnd1 hacc1]
    by_cases hkt : tag = key
    · subst hkt
      have hrest : alookup rest tag = none := by
        rw [alookup_eq_none_iff_not_mem_akeys]
        exact htag
      rw [hrest,
        show alookup ((tag, v) :: rest) tag = some v from by simp [alookup]]
      show alookup (if v ≠ "" then valuesAdd acc tag v else acc) tag =
        if v ≠ "" then some [v] else alookup acc tag
      by_cases hv : v ≠ ""
      · rw [if_pos hv]
        rw [if_pos hv]
        unfold valuesAdd
        rw [alookup_ainsert, if_pos rfl, hacchead]
        rfl
      · rw [if_neg hv, if_neg hv]
    · rw [show alookup ((tag, v) :: rest) key = alookup rest key from by
        simp [alookup, hkt]]
      cases hrk : alookup rest key with
      | none =>
        show alookup (if v ≠ "" then valuesAdd acc tag v else acc) key =
          alookup acc key
        exact hframe key (fun he => hkt he.symm)
      | some w =>
        show (if w ≠ "" then some [w]
            else alookup (if v ≠ "" then valuesAdd acc tag v else acc) key) =
          if w ≠ "" then some [w] else alookup acc key
        by_cases hw : w ≠ ""
        · rw [if_pos hw, if_pos hw]
        · rw [if_neg hw, if_neg hw]
          exact hframe key (fun he => hkt he.symm)

/-- C7: encoding `Params{AppID:"a", AppKey:"k"}`, `Metrics{hits:1,
other:2}` and `ClientAuth{ServiceToken,"tok"}` for service `"svc"`
produces exactly the six expected query parameters and nothing else
(whatever order the metrics map iterates in), and every empty-string
Params field is omitted entirely from the encoding. -/
theorem authRequest_param_encoding :
    (∀ ms : Metrics, ms.Perm [("hits", 1), ("other", 2)] →
      (setValuesAuth "svc" ⟨"service_token", "tok"⟩
        ⟨ms, ⟨"a", "k", "", "", ""⟩, 0⟩).Perm
        [("service_id", ["svc"]), ("service_token", ["tok"]),
         ("usage[hits]", ["1"]), ("usage[other]", ["2"]),
         ("app_id", ["a"]), ("app_key", ["k"])]) ∧
    (∀ p : Params,
      (p.appID = "" → alookup (paramsToValues p) "app_id" = none) ∧
      (p.appKey = "" → alookup (paramsToValues p) "app_key" = none) ∧
      (p.referrer = "" → alookup (paramsToValues p) "referrer" = none) ∧
      (p.userID = "" → alookup (paramsToValues p) "user_id" = none) ∧
      (p.userKey = "" → alookup (paramsToValues p) "user_key" = none)) := by
  constructor
  · intro ms hperm
    rcases perm_pair_cases hperm with hms | hms <;> subst hms <;> decide
  · intro p
    have hbase : ∀ key,
        alookup (paramsToValues p) key =
          (match alookup (paramsFields p) key with
           | some v => if v ≠ "" then some [v] else alookup ([] : Values) key
           | none => alookup ([] : Values) key) := by
      intro key
      exact paramsFold_lookup (paramsFields p) [] key (by
        show (["app_id", "app_key", "referrer", "user_id", "user_key"] :
          List String).Nodup
        decide) (fun _ _ => rfl)
    refine ⟨?_, ?_, ?_, ?_, ?_⟩ <;> intro hf <;>
      rw [hbase] <;> simp [paramsFields, alookup, hf]

/-- C7 witness: the concrete encoding and the omission of an empty
referrer on a concrete Params value. -/
theorem authRequest_param_encoding_witness :
    (setValuesAuth "svc" ⟨"service_token", "tok"⟩
      ⟨[("hits", 1), ("other", 2)], ⟨"a", "k", "", "", ""⟩, 0⟩).Perm
      [("service_id", ["svc"]), ("service_token", ["tok"]),
       ("usage[hits]", ["1"]), ("usage[other]", ["2"]),
       ("app_id", ["a"]), ("app_key", ["k"])] ∧
    alookup (paramsToValues ⟨"a", "k", "", "", ""⟩) "referrer" = none :=
  ⟨authRequest_param_encoding.1 [("hits", 1), ("other", 2)] (List.Perm.refl _),
   (authRequest_param_encoding.2 ⟨"a", "k", "", "", ""⟩).2.2.1 rfl⟩

end ThreeScaleClient
